import Mathlib

/-!
Verification of the core fetch/graph subsystem of the UFCT backend
(src/data/openalex_fetcher.py and src/models/network.py).

The Python code is shallowly embedded: wall-clock time is modelled by
rational numbers, Python dicts by insertion-ordered association lists,
and the remote HTTP endpoint by explicit oracles (lists of page
outcomes).  Every definition follows the corresponding Python function;
comments cite the source lines.
-/

set_option autoImplicit false
set_option linter.unusedVariables false
set_option linter.unnecessarySeqFocus false

namespace UFCT

/-! String ordering.  Python's `sorted` on strings compares by unicode
code points, i.e. lexicographically on the character sequence.  We spell
the comparison out on `List Char` so that it evaluates by `decide`. -/

def charListLe : List Char → List Char → Bool
  | [], _ => true
  | _ :: _, [] => false
  | a :: as, b :: bs => if a < b then true else if b < a then false else charListLe as bs

/-- Python string comparison `a <= b` (code-point lexicographic). -/
def strLe (a b : String) : Bool := charListLe a.data b.data

/-- Python `tuple(sorted([a, b]))` for two strings: the canonical
unordered-pair key used by the collaboration accumulators
(openalex_fetcher.py lines 869, 876, 907, 914). -/
def sortPair (a b : String) : String × String :=
  if strLe a b then (a, b) else (b, a)

theorem charListLe_total : ∀ as bs : List Char, charListLe as bs = true ∨ charListLe bs as = true := by
  intro as
  induction as with
  | nil => intro bs; left; rfl
  | cons a as ih =>
    intro bs
    cases bs with
    | nil => right; rfl
    | cons b bs =>
      rcases lt_trichotomy a b with h | h | h
      · left; simp [charListLe, h]
      · subst h
        rcases ih bs with h2 | h2
        · left; simp [charListLe, lt_irrefl, h2]
        · right; simp [charListLe, lt_irrefl, h2]
      · right; simp [charListLe, h]

theorem charListLe_antisymm : ∀ as bs : List Char,
    charListLe as bs = true → charListLe bs as = true → as = bs := by
  intro as
  induction as with
  | nil =>
    intro bs _ h2
    cases bs with
    | nil => rfl
    | cons b bs => simp [charListLe] at h2
  | cons a as ih =>
    intro bs h1 h2
    cases bs with
    | nil => simp [charListLe] at h1
    | cons b bs =>
      rcases lt_trichotomy a b with h | h | h
      · exfalso
        have : ¬ b < a := lt_asymm h
        simp [charListLe, h, this] at h2
      · subst h
        simp only [charListLe, lt_irrefl, if_false] at h1 h2
        exact congrArg (a :: ·) (ih bs h1 h2)
      · exfalso
        have : ¬ a < b := lt_asymm h
        simp [charListLe, h, this] at h1

theorem strLe_total (a b : String) : strLe a b = true ∨ strLe b a = true :=
  charListLe_total a.data b.data

theorem strLe_antisymm {a b : String} (h1 : strLe a b = true) (h2 : strLe b a = true) : a = b := by
  have h := charListLe_antisymm a.data b.data h1 h2
  cases a; cases b
  exact congrArg String.mk h

theorem sortPair_swap (a b : String) : sortPair a b = sortPair b a := by
  unfold sortPair
  split_ifs with h1 h2 h2
  · have := strLe_antisymm h1 h2
    subst this; rfl
  · rfl
  · rfl
  · rcases strLe_total a b with h | h
    · exact absurd h h1
    · exact absurd h h2

theorem sortPair_eq_iff (a b c d : String) :
    sortPair a b = sortPair c d ↔ (a = c ∧ b = d) ∨ (a = d ∧ b = c) := by
  constructor
  · intro h
    unfold sortPair at h
    split_ifs at h with h1 h2 h2
    · exact Or.inl ⟨(Prod.ext_iff.mp h).1, (Prod.ext_iff.mp h).2⟩
    · exact Or.inr ⟨(Prod.ext_iff.mp h).1, (Prod.ext_iff.mp h).2⟩
    · exact Or.inr ⟨(Prod.ext_iff.mp h).2, (Prod.ext_iff.mp h).1⟩
    · exact Or.inl ⟨(Prod.ext_iff.mp h).2, (Prod.ext_iff.mp h).1⟩
  · intro h
    rcases h with ⟨e1, e2⟩ | ⟨e1, e2⟩
    · subst e1; subst e2; rfl
    · subst e1; subst e2; exact sortPair_swap a b

/-! RateLimiter (openalex_fetcher.py lines 21-78).

`acquire(timeout)` runs under a single mutex.  It samples the clock,
computes the elapsed time since `last_request_time`, and if that is
shorter than `min_interval` it sleeps the remainder — unless doing so
would exceed `timeout`, in which case it returns `False` without
sleeping or touching the state.  We model one serialized call by the
wall-clock values it can observe:
* `start`      — `time.time()` on entry (`start_time`),
* `lockDelay`  — how long later the in-lock `now = time.time()` is read,
* `checkDelay` — the value of `time.time() - start_time` in the timeout
  test on line 70,
* `slack`      — how far `time.sleep(wait_time)` overshoots `wait_time`
  (sleeping is never shorter than requested, so `0 ≤ slack`). -/

structure AcquireInput where
  start : ℚ
  lockDelay : ℚ
  checkDelay : ℚ
  slack : ℚ

/-- One call of `RateLimiter.acquire` (lines 47-78).  Returns
`(granted, new last_request_time, clock when the call returns)`. -/
def acquire (minInterval timeout last : ℚ) (inp : AcquireInput) : Bool × ℚ × ℚ :=
  if inp.start + inp.lockDelay - last < minInterval then
    -- wait_time = min_interval - time_since_last
    if inp.checkDelay + (minInterval - (inp.start + inp.lockDelay - last)) > timeout then
      (false, last, inp.start + inp.checkDelay)
    else
      (true, inp.start + inp.lockDelay + (minInterval - (inp.start + inp.lockDelay - last)) + inp.slack,
       inp.start + inp.lockDelay + (minInterval - (inp.start + inp.lockDelay - last)) + inp.slack)
  else (true, inp.start + inp.lockDelay, inp.start + inp.lockDelay)

theorem acquire_false_state (minInterval timeout last : ℚ) (inp : AcquireInput)
    (h : (acquire minInterval timeout last inp).1 = false) :
    (acquire minInterval timeout last inp).2.1 = last := by
  unfold acquire at *
  split_ifs at *
  simp_all

theorem acquire_true_gap (minInterval timeout last : ℚ) (inp : AcquireInput)
    (hs : 0 ≤ inp.slack) (h : (acquire minInterval timeout last inp).1 = true) :
    last + minInterval ≤ (acquire minInterval timeout last inp).2.1 := by
  unfold acquire at *
  split_ifs at * with h1 h2
  · show last + minInterval ≤
      inp.start + inp.lockDelay + (minInterval - (inp.start + inp.lockDelay - last)) + inp.slack
    linarith
  · show last + minInterval ≤ inp.start + inp.lockDelay
    linarith

/-- A sequence of serialized `acquire` calls against one shared
`last_request_time`, starting from state `last`.  Returns, per call, the
grant flag together with the `last_request_time` after the call. -/
def acquireRun (minInterval timeout : ℚ) : ℚ → List AcquireInput → List (Bool × ℚ)
  | _, [] => []
  | last, inp :: rest =>
    let r := acquire minInterval timeout last inp
    (r.1, r.2.1) :: acquireRun minInterval timeout r.2.1 rest

/-- The grant timestamps recorded by the successful calls of a run. -/
def grantTimes (rs : List (Bool × ℚ)) : List ℚ :=
  (rs.filter (fun r => r.1)).map (fun r => r.2)

/-- C2: every sequence of serialized `acquire` calls yields grant
timestamps (the values written to `last_request_time`) that are spaced
at least `min_interval = 1 / max_requests_per_second` apart: the chain
relation asserts `g + 1/maxRPS ≤ g'` for every pair of consecutive
recorded grants (and between the initial state and the first grant).
In particular, at 10 requests/second, 5 successful calls span at least
4 × (1/10) = 0.4 seconds. -/
theorem C2_rate_limiter_min_spacing (maxRPS timeout last : ℚ) (inputs : List AcquireInput)
    (hslack : ∀ i ∈ inputs, 0 ≤ i.slack) :
    List.Chain (fun g g' => g + 1 / maxRPS ≤ g') last
      (grantTimes (acquireRun (1 / maxRPS) timeout last inputs)) := by
  induction inputs generalizing last with
  | nil => exact List.Chain.nil
  | cons inp rest ih =>
    have hs : 0 ≤ inp.slack := hslack inp (List.mem_cons_self _ _)
    have hrest : ∀ i ∈ rest, 0 ≤ i.slack := fun i hi => hslack i (List.mem_cons_of_mem _ hi)
    simp only [acquireRun]
    by_cases hg : (acquire (1 / maxRPS) timeout last inp).1 = true
    · have hgap := acquire_true_gap (1 / maxRPS) timeout last inp hs hg
      simp only [grantTimes, List.filter, hg]
      exact List.Chain.cons hgap
        (ih ((acquire (1 / maxRPS) timeout last inp).2.1) hrest)
    · have hfalse : (acquire (1 / maxRPS) timeout last inp).1 = false := by
        simpa using hg
      have hstate := acquire_false_state (1 / maxRPS) timeout last inp hfalse
      simp only [grantTimes, List.filter, hfalse]
      rw [hstate]
      exact ih last hrest

/-- Witness run for C2: a `RateLimiter` at 10 requests/second
(min interval 1/10 s) with five back-to-back calls. -/
def c2Inputs : List AcquireInput :=
  [⟨100, 0, 0, 0⟩, ⟨100, 0, 0, 0⟩, ⟨100, 0, 0, 0⟩, ⟨100, 0, 0, 0⟩, ⟨100, 0, 0, 0⟩]

theorem C2_rate_limiter_min_spacing_witness :
    (∀ i ∈ c2Inputs, 0 ≤ i.slack) ∧
      List.Chain (fun g g' => g + 1 / (10 : ℚ) ≤ g') 0
        (grantTimes (acquireRun (1 / (10 : ℚ)) 60 0 c2Inputs)) :=
  ⟨by decide, C2_rate_limiter_min_spacing 10 60 0 c2Inputs (by decide)⟩

/-! Batch partitioning (openalex_fetcher.py lines 205-263).

`_get_optimal_batch_size` picks the batch size from the input size via a
fixed table; `_batch_by_or_syntax` chunks the id list into consecutive
groups of at most `batch_size` elements (capping `batch_size` at the
official OR-filter limit of 100).  Python's `range(0, len, step)` with
`step = 0` raises, so chunking is only meaningful for a positive batch
size; the `batchSize = 0` guard below exists solely to make the Lean
function total. -/

def getOptimalBatchSize (numItems : ℕ) : ℕ :=
  if numItems ≤ 50 then (if numItems ≤ 25 then numItems else 25)
  else if numItems ≤ 200 then 50
  else if numItems ≤ 500 then 60
  else 70

/-- The chunking loop `for i in range(0, len(ids), batch_size)` of
`_batch_by_or_syntax` (lines 260-263). -/
def chunksOf {α : Type} (batchSize : ℕ) (l : List α) : List (List α) :=
  match l with
  | [] => []
  | x :: xs =>
    if batchSize = 0 then []
    else (x :: xs).take batchSize :: chunksOf batchSize ((x :: xs).drop batchSize)
termination_by l.length
decreasing_by
  rename_i h
  simp only [List.length_drop, List.length_cons]
  omega

/-- Embeds `OpenAlexFetcher._batch_by_or_syntax` (lines 240-263): cap the batch
size at 100, then chunk. -/
def batchByOr (ids : List String) (batchSize : ℕ) : List (List String) :=
  chunksOf (if batchSize > 100 then 100 else batchSize) ids

/-- The batch-pair double loop of `get_collaboration_by_authors_batch`
(lines 767-771): all index pairs `(a, b)` with `a ≤ b`, in loop order;
pairs with `a > b` are skipped by the `continue`. -/
def batchPairs (numBatches : ℕ) : List (ℕ × ℕ) :=
  (List.range numBatches).flatMap
    (fun a => (List.range numBatches).filterMap
      (fun b => if a > b then none else some (a, b)))

theorem chunksOf_length {α : Type} (n : ℕ) (hn : 0 < n) (l : List α) :
    (chunksOf n l).length = (l.length + n - 1) / n := by
  match l with
  | [] =>
    rw [chunksOf]
    simp only [List.length_nil]
    rw [Nat.div_eq_of_lt (by omega)]
  | x :: xs =>
    rw [chunksOf, if_neg (by omega)]
    have ih := chunksOf_length n hn ((x :: xs).drop n)
    simp only [List.length_cons, ih, List.length_drop]
    rcases Nat.lt_or_ge (xs.length + 1) (n + 1) with hc | hc
    · have h1 : xs.length + 1 - n + n - 1 < n := by omega
      have h2 : (xs.length + 1 + n - 1) / n = 1 :=
        Nat.div_eq_of_lt_le (by omega) (by omega)
      rw [Nat.div_eq_of_lt h1, h2]
    · have h1 : xs.length + 1 - n + n - 1 = (xs.length + 1) - 1 := by omega
      have h2 : xs.length + 1 + n - 1 = ((xs.length + 1) - 1) + n := by omega
      rw [h1, h2, Nat.add_div_right _ hn]
termination_by l.length
decreasing_by
  simp only [List.length_drop, List.length_cons]
  omega

theorem length_flatMap {α β : Type} (l : List α) (f : α → List β) :
    (l.flatMap f).length = (l.map (fun a => (f a).length)).sum := by
  induction l with
  | nil => rfl
  | cons x xs ih => simp [ih]

theorem batchPairs_inner_length (i b : ℕ) :
    ((List.range b).filterMap (fun j => if i > j then none else some (i, j))).length = b - i := by
  induction b with
  | zero => simp
  | succ b ih =>
    rw [List.range_succ, List.filterMap_append, List.length_append, ih]
    by_cases h : i > b
    · simp [h]; omega
    · simp [h]; omega

theorem sum_map_add_one {α : Type} (l : List α) (f : α → ℕ) :
    (l.map (fun a => f a + 1)).sum = (l.map f).sum + l.length := by
  induction l with
  | nil => rfl
  | cons x xs ih => simp [ih]; omega

theorem two_mul_sum_range_sub (b : ℕ) :
    2 * ((List.range b).map (fun a => b - a)).sum = b * (b + 1) := by
  induction b with
  | zero => rfl
  | succ b ih =>
    rw [List.range_succ, List.map_append, List.sum_append]
    have hcong : (List.range b).map (fun a => b + 1 - a) = (List.range b).map (fun a => (b - a) + 1) := by
      apply List.map_congr_left
      intro a ha
      have : a < b := List.mem_range.mp ha
      omega
    simp only [hcong, sum_map_add_one, List.length_range, List.map_cons, List.map_nil,
      List.sum_cons, List.sum_nil]
    have : 2 * (((List.range b).map (fun a => b - a)).sum + b + (b + 1 - b + 0)) =
        2 * ((List.range b).map (fun a => b - a)).sum + 2 * b + 2 := by omega
    rw [this, ih]
    ring

theorem batchPairs_length (b : ℕ) : (batchPairs b).length = b * (b + 1) / 2 := by
  rw [batchPairs, length_flatMap]
  have hcong : (List.range b).map
      (fun a => ((List.range b).filterMap (fun j => if a > j then none else some (a, j))).length) =
      (List.range b).map (fun a => b - a) := by
    apply List.map_congr_left
    intro a _
    exact batchPairs_inner_length a b
  rw [hcong]
  have h2 := two_mul_sum_range_sub b
  omega

/-! Collaboration aggregation
(`get_collaboration_by_authors_batch`, openalex_fetcher.py lines 663-951).

A returned record is modelled by the list of its (short) author ids, in
authorship order; the short-id extraction `author_id.split('/')[-1]`
(lines 862, 897) is applied before the record enters the embedding, and
author ids are taken in short form throughout (so the `full_ids`
short-to-full mapping of lines 721-728 is the identity).  The remote
endpoint is an oracle assigning to each batch-index pair the sequence of
page outcomes its paginated query would produce; `err` stands for any
exception raised by `_make_request` after its own retries. -/

structure Work where
  authors : List String
deriving DecidableEq

inductive PageResult
  | ok (works : List Work) (hasNext : Bool)
  | err
deriving DecidableEq

/-- The pagination loop of one batch-pair query (lines 807-848): extend
`all_works` page by page; a failed request breaks the loop keeping the
works fetched so far (lines 817-821); stop early once more than
`max_papers_per_batch` works have been fetched (lines 845-848); stop
when the cursor is exhausted. -/
def fetchAllWorks (maxPapers : ℕ) : List PageResult → List Work → List Work
  | [], acc => acc
  | PageResult.err :: _, acc => acc
  | PageResult.ok works hasNext :: rest, acc =>
    if maxPapers < (acc ++ works).length then acc ++ works
    else if hasNext then fetchAllWorks maxPapers rest (acc ++ works)
    else acc ++ works

/-- The record's author ids intersected with a batch, in authorship
order (the `if short_id in batch_a_ids: work_authors.append(short_id)`
loops, lines 856-864 and 893-901). -/
def workAuthorsIn (batch : List String) (w : Work) : List String :=
  w.authors.filter (fun a => a ∈ batch)

/-- All position pairs `i < j` of a list, in the order of the double
loop `for i in range(len): for j in range(i+1, len)` (lines 867-870). -/
def upairs {α : Type} : List α → List (α × α)
  | [] => []
  | x :: xs => (xs.map (fun y => (x, y))) ++ upairs xs

/-- Within-batch case (lines 851-870): the sequence of sorted pair keys
whose accumulator entries one record increments. -/
def withinRecordKeys (batchA : List String) (w : Work) : List (String × String) :=
  (upairs (workAuthorsIn batchA w)).map (fun p => sortPair p.1 p.2)

/-- Cross-batch case (lines 885-908): the ordered pairs
`(a ∈ membersA, b ∈ membersB)` with `a ≠ b` that the double loop visits,
each of which increments the accumulator of its sorted key. -/
def crossRecordEvents (batchA batchB : List String) (w : Work) : List (String × String) :=
  (workAuthorsIn batchA w).flatMap (fun a =>
    (workAuthorsIn batchB w).filterMap (fun b => if a ≠ b then some (a, b) else none))

/-- Sorted keys of the cross-batch increments (line 907). -/
def crossRecordKeys (batchA batchB : List String) (w : Work) : List (String × String) :=
  (crossRecordEvents batchA batchB w).map (fun p => sortPair p.1 p.2)

/-- Models one increment of `author_pair_works[pair] = author_pair_works.get(pair, 0) + 1`
(lines 870, 908) on an insertion-ordered association list. -/
def bumpCount (m : List ((String × String) × ℕ)) (k : String × String) :
    List ((String × String) × ℕ) :=
  if m.any (fun p => p.1 = k) then m.map (fun p => if p.1 = k then (p.1, p.2 + 1) else p)
  else m ++ [(k, 1)]

/-- The `author_pair_works` accumulator of one batch-pair query, over
the keys of all its records' increments. -/
def pairCounts (keys : List (String × String)) : List ((String × String) × ℕ) :=
  keys.foldl bumpCount []

/-- Merging one batch pair's `author_pair_works` into `collaborations`
(lines 873-884 and 911-922): each entry is re-keyed by
`tuple(sorted(...))` and inserted only `if key not in collaborations`. -/
def insertCollabs (collabs : List ((String × String) × ℕ))
    (pairWorks : List ((String × String) × ℕ)) : List ((String × String) × ℕ) :=
  pairWorks.foldl
    (fun cs pc =>
      if cs.any (fun q => q.1 = sortPair pc.1.1 pc.1.2) then cs
      else cs ++ [(sortPair pc.1.1 pc.1.2, pc.2)])
    collabs

/-- The increment keys a batch pair `(a, b)` derives from its fetched
records: within-batch pairs when `a = b` (lines 851-870), cross-batch
pairs otherwise (lines 885-908). -/
def pairKeys (batches : List (List String)) (a b : ℕ) (works : List Work) :
    List (String × String) :=
  if a = b then works.flatMap (fun w => withinRecordKeys (batches.getD a []) w)
  else works.flatMap (fun w => crossRecordKeys (batches.getD a []) (batches.getD b []) w)

structure AggState where
  collaborations : List ((String × String) × ℕ)
  totalRequests : ℕ
deriving DecidableEq

/-- Processing of one batch pair inside the double loop: count the
request (line 773), fetch its pages, accumulate and merge.  Any request
failure is absorbed by `fetchAllWorks`; an `err` on the first page makes
the pair contribute nothing, which is the caught-logged-skipped path of
lines 817-821 and 926-928. -/
def processPair (batches : List (List String)) (maxPapers : ℕ)
    (oracle : ℕ × ℕ → List PageResult) (st : AggState) (pr : ℕ × ℕ) : AggState :=
  { collaborations :=
      insertCollabs st.collaborations
        (pairCounts (pairKeys batches pr.1 pr.2 (fetchAllWorks maxPapers (oracle pr) []))),
    totalRequests := st.totalRequests + 1 }

def aggregateOver (batches : List (List String)) (maxPapers : ℕ)
    (oracle : ℕ × ℕ → List PageResult) (pairs : List (ℕ × ℕ)) : AggState :=
  pairs.foldl (processPair batches maxPapers oracle) ⟨[], 0⟩

/-- Embeds `get_collaboration_by_authors_batch` (lines 663-951): adaptive batch
size, chunking, and the double loop over batch pairs. -/
def getCollaborationByAuthorsBatch (ids : List String) (maxPapers : ℕ)
    (oracle : ℕ × ℕ → List PageResult) : AggState :=
  match ids with
  | [] => ⟨[], 0⟩
  | _ :: _ =>
    aggregateOver (batchByOr ids (getOptimalBatchSize ids.length)) maxPapers oracle
      (batchPairs (batchByOr ids (getOptimalBatchSize ids.length)).length)

theorem aggregateOver_totalRequests_aux (batches : List (List String)) (maxPapers : ℕ)
    (oracle : ℕ × ℕ → List PageResult) (pairs : List (ℕ × ℕ)) (st : AggState) :
    (pairs.foldl (processPair batches maxPapers oracle) st).totalRequests =
      st.totalRequests + pairs.length := by
  induction pairs generalizing st with
  | nil => simp
  | cons pr rest ih =>
    simp only [List.foldl_cons, ih, processPair, List.length_cons]
    omega

/-- C3: for a non-empty id list of size `N` and a chosen batch size
`0 < S ≤ 100` (the adaptive table only chooses values `≤ 70`), the
partition has exactly `B = ⌈N / S⌉` batches, the pair enumeration has
`B * (B + 1) / 2` entries, and the aggregation issues exactly that many
batch-pair queries regardless of the page oracle. -/
theorem C3_batch_pair_query_count (ids : List String) (S : ℕ)
    (hne : ids ≠ []) (hS : 0 < S) (hcap : S ≤ 100)
    (maxPapers : ℕ) (oracle : ℕ × ℕ → List PageResult) :
    (batchByOr ids S).length = (ids.length + S - 1) / S ∧
    (batchPairs (batchByOr ids S).length).length =
      (batchByOr ids S).length * ((batchByOr ids S).length + 1) / 2 ∧
    (aggregateOver (batchByOr ids S) maxPapers oracle
        (batchPairs (batchByOr ids S).length)).totalRequests =
      (batchByOr ids S).length * ((batchByOr ids S).length + 1) / 2 := by
  have hcapped : (if S > 100 then 100 else S) = S := by
    rw [if_neg (by omega)]
  refine ⟨?_, ?_, ?_⟩
  · rw [batchByOr, hcapped]
    exact chunksOf_length S hS ids
  · exact batchPairs_length _
  · rw [aggregateOver, aggregateOver_totalRequests_aux]
    simpa using batchPairs_length (batchByOr ids S).length

/-- Witness ids for C3: the spec scenario of 120 authors at batch size
60, giving 2 batches and 3 batch-pair queries. -/
def c3Ids : List String := List.replicate 120 "A5000000000"

theorem C3_batch_pair_query_count_witness :
    (c3Ids ≠ [] ∧ 0 < 60 ∧ 60 ≤ 100) ∧
      ((batchByOr c3Ids 60).length = (c3Ids.length + 60 - 1) / 60 ∧
        (batchPairs (batchByOr c3Ids 60).length).length =
          (batchByOr c3Ids 60).length * ((batchByOr c3Ids 60).length + 1) / 2 ∧
        (aggregateOver (batchByOr c3Ids 60) 20000 (fun _ => [])
            (batchPairs (batchByOr c3Ids 60).length)).totalRequests =
          (batchByOr c3Ids 60).length * ((batchByOr c3Ids 60).length + 1) / 2) :=
  ⟨⟨by decide, by decide, by decide⟩,
   C3_batch_pair_query_count c3Ids 60 (by decide) (by decide) (by decide) 20000 (fun _ => [])⟩

/-- A batch pair whose very first page request raises: the failure mode
of C9 ("a batch-pair request fails after its retries"). -/
def pairFails (pages : List PageResult) : Bool :=
  match pages with
  | PageResult.err :: _ => true
  | _ => false

theorem fetchAllWorks_err_first (maxPapers : ℕ) (pages : List PageResult)
    (h : pairFails pages = true) : fetchAllWorks maxPapers pages [] = [] := by
  match pages with
  | [] => simp [pairFails] at h
  | PageResult.ok w n :: rest => simp [pairFails] at h
  | PageResult.err :: rest => rfl

theorem pairKeys_nil (batches : List (List String)) (a b : ℕ) :
    pairKeys batches a b [] = [] := by
  unfold pairKeys
  split_ifs <;> rfl

theorem processPair_failed_collaborations (batches : List (List String)) (maxPapers : ℕ)
    (oracle : ℕ × ℕ → List PageResult) (st : AggState) (pr : ℕ × ℕ)
    (h : pairFails (oracle pr) = true) :
    (processPair batches maxPapers oracle st pr).collaborations = st.collaborations := by
  simp only [processPair, fetchAllWorks_err_first maxPapers (oracle pr) h, pairKeys_nil]
  rfl

theorem aggregateOver_skip_failed_aux (batches : List (List String)) (maxPapers : ℕ)
    (oracle : ℕ × ℕ → List PageResult) (pairs : List (ℕ × ℕ)) :
    ∀ st st' : AggState, st.collaborations = st'.collaborations →
      (pairs.foldl (processPair batches maxPapers oracle) st).collaborations =
        ((pairs.filter (fun pr => !(pairFails (oracle pr)))).foldl
            (processPair batches maxPapers oracle) st').collaborations := by
  induction pairs with
  | nil => intro st st' h; simpa using h
  | cons pr rest ih =>
    intro st st' h
    by_cases hf : pairFails (oracle pr) = true
    · simp only [List.foldl_cons, List.filter_cons, hf, Bool.not_true, Bool.false_eq_true,
        if_false]
      exact ih _ st' (by rw [processPair_failed_collaborations _ _ _ _ _ hf, h])
    · have hf' : pairFails (oracle pr) = false := by
        simpa using hf
      simp only [List.foldl_cons, List.filter_cons, hf', Bool.not_false, eq_self_iff_true,
        if_true]
      apply ih
      simp only [processPair, h]

/-- C9: a batch pair whose request fails is skipped — the aggregation's
final collaboration map is exactly the one computed from the remaining
(non-failing) batch pairs, for every partition, oracle and pair list; in
particular the aggregation still returns its accumulated result instead
of propagating the failure. -/
theorem C9_failed_batch_pair_skipped (batches : List (List String)) (maxPapers : ℕ)
    (oracle : ℕ × ℕ → List PageResult) (pairs : List (ℕ × ℕ)) :
    (aggregateOver batches maxPapers oracle pairs).collaborations =
      (aggregateOver batches maxPapers oracle
          (pairs.filter (fun pr => !(pairFails (oracle pr))))).collaborations :=
  aggregateOver_skip_failed_aux batches maxPapers oracle pairs ⟨[], 0⟩ ⟨[], 0⟩ rfl

theorem charListLe_refl (as : List Char) : charListLe as as = true := by
  induction as with
  | nil => rfl
  | cons a l ih => simp [charListLe, lt_irrefl, ih]

theorem sortPair_self (x : String) : sortPair x x = (x, x) := by
  simp [sortPair, strLe, charListLe_refl]

theorem upairs_ne {α : Type} : ∀ l : List α, l.Nodup → ∀ p ∈ upairs l, p.1 ≠ p.2 := by
  intro l
  induction l with
  | nil => intro _ p hp; simp [upairs] at hp
  | cons z zs ih =>
    intro hl p hp
    obtain ⟨hz, hnd⟩ := List.nodup_cons.mp hl
    rw [upairs, List.mem_append] at hp
    rcases hp with hp | hp
    · obtain ⟨t, ht, rfl⟩ := List.mem_map.mp hp
      intro he
      have hzt : z = t := he
      exact hz (hzt ▸ ht)
    · exact ih hnd p hp

theorem count_map_pair_left (z x y : String) (hxy : x ≠ y) :
    ∀ zs : List String, zs.Nodup →
      (zs.map (fun t => sortPair z t)).count (sortPair x y)
        = if (z = x ∧ y ∈ zs) ∨ (z = y ∧ x ∈ zs) then 1 else 0 := by
  intro zs
  induction zs with
  | nil => intro _; simp
  | cons t ts ih =>
    intro hnd
    obtain ⟨ht, hnd'⟩ := List.nodup_cons.mp hnd
    rw [List.map_cons, List.count_cons, ih hnd']
    rcases Classical.em (z = x) with hzx | hzx <;>
      rcases Classical.em (z = y) with hzy | hzy <;>
      rcases Classical.em (t = x) with htx | htx <;>
      rcases Classical.em (t = y) with hty | hty <;>
      rcases Classical.em (x ∈ ts) with hxm | hxm <;>
      rcases Classical.em (y ∈ ts) with hym | hym <;>
      simp_all [List.mem_cons, sortPair_eq_iff] <;> first | omega | (split_ifs <;> simp_all)

theorem count_withinKeys : ∀ l : List String, l.Nodup → ∀ x y : String, x ≠ y →
    ((upairs l).map (fun p => sortPair p.1 p.2)).count (sortPair x y)
      = if x ∈ l ∧ y ∈ l then 1 else 0 := by
  intro l
  induction l with
  | nil => intro _ x y _; simp [upairs]
  | cons z zs ih =>
    intro hl x y hxy
    obtain ⟨hz, hnd⟩ := List.nodup_cons.mp hl
    rw [upairs, List.map_append, List.count_append, List.map_map]
    have h1 : ((zs.map (fun t => (z, t))).map (fun p => sortPair p.1 p.2)).count (sortPair x y)
        = if (z = x ∧ y ∈ zs) ∨ (z = y ∧ x ∈ zs) then 1 else 0 := by
      rw [List.map_map]
      exact count_map_pair_left z x y hxy zs hnd
    rw [← List.map_map, h1, ih hnd x y hxy]
    rcases Classical.em (z = x) with hzx | hzx <;>
      rcases Classical.em (z = y) with hzy | hzy <;>
      rcases Classical.em (x ∈ zs) with hxm | hxm <;>
      rcases Classical.em (y ∈ zs) with hym | hym <;>
      simp_all [List.mem_cons] <;> first | omega | (split_ifs <;> simp_all)

theorem count_withinKeys_diag (l : List String) (hl : l.Nodup) (x : String) :
    ((upairs l).map (fun p => sortPair p.1 p.2)).count (x, x) = 0 := by
  rw [List.count_eq_zero]
  intro hmem
  obtain ⟨p, hp, he⟩ := List.mem_map.mp hmem
  have hne := upairs_ne l hl p hp
  rw [← sortPair_self x] at he
  rcases (sortPair_eq_iff p.1 p.2 x x).mp he with ⟨h1, h2⟩ | ⟨h1, h2⟩ <;>
    exact hne (h1.trans h2.symm)

theorem count_filterMap_ne (u a b : String) :
    ∀ fb : List String, fb.Nodup →
      (fb.filterMap (fun v => if u ≠ v then some (u, v) else none)).count (a, b)
        = if u = a ∧ b ∈ fb ∧ a ≠ b then 1 else 0 := by
  intro fb
  induction fb with
  | nil => intro _; simp
  | cons v vs ih =>
    intro hnd
    obtain ⟨hv, hnd'⟩ := List.nodup_cons.mp hnd
    rw [List.filterMap_cons]
    rcases Classical.em (u = v) with huv | huv
    · simp only [huv, ne_eq, not_true_eq_false, if_false, ih hnd']
      rcases Classical.em (v = a) with hva | hva <;>
        rcases Classical.em (a = b) with hab | hab <;>
        rcases Classical.em (b ∈ vs) with hbm | hbm <;>
        simp_all [List.mem_cons] <;> first | omega | (split_ifs <;> simp_all)
    · simp only [ne_eq, huv, not_false_eq_true, if_true, List.count_cons, ih hnd']
      rcases Classical.em (u = a) with hua | hua <;>
        rcases Classical.em (v = b) with hvb | hvb <;>
        rcases Classical.em (a = b) with hab | hab <;>
        rcases Classical.em (b ∈ vs) with hbm | hbm <;>
        simp_all [List.mem_cons, Prod.ext_iff] <;> first | omega | (split_ifs <;> simp_all)

theorem count_crossEvents (fa fb : List String) (hfa : fa.Nodup) (hfb : fb.Nodup)
    (a b : String) :
    (fa.flatMap (fun u => fb.filterMap (fun v => if u ≠ v then some (u, v) else none))).count (a, b)
      = if a ∈ fa ∧ b ∈ fb ∧ a ≠ b then 1 else 0 := by
  induction fa with
  | nil => simp
  | cons u us ih =>
    obtain ⟨hu, hnd⟩ := List.nodup_cons.mp hfa
    rw [List.flatMap_cons, List.count_append, count_filterMap_ne u a b fb hfb, ih hnd]
    rcases Classical.em (u = a) with hua | hua <;>
      rcases Classical.em (a ∈ us) with ham | ham <;>
      rcases Classical.em (b ∈ fb) with hbm | hbm <;>
      rcases Classical.em (a = b) with hab | hab <;>
      simp_all [List.mem_cons] <;> first | omega | (split_ifs <;> simp_all)

/-- C4: per returned record, with `membersA`/`membersB` the record's
author-id set intersected with batch A resp. batch B: the within-batch
accumulator receives exactly one increment for every unordered pair of
distinct members of `membersA` (and none for any degenerate self pair),
and the cross-batch accumulator receives exactly one increment for every
pair `(a ∈ membersA, b ∈ membersB)` with `a ≠ b`.  The record's author
list is assumed duplicate-free, as befits a set of author ids. -/
theorem C4_per_record_increments (A B : List String) (w : Work) (hnd : w.authors.Nodup) :
    (∀ x y : String, x ≠ y →
      (withinRecordKeys A w).count (sortPair x y)
        = if x ∈ workAuthorsIn A w ∧ y ∈ workAuthorsIn A w then 1 else 0)
    ∧ (∀ x : String, (withinRecordKeys A w).count (x, x) = 0)
    ∧ (∀ a b : String,
      (crossRecordEvents A B w).count (a, b)
        = if a ∈ workAuthorsIn A w ∧ b ∈ workAuthorsIn B w ∧ a ≠ b then 1 else 0) := by
  have hA : (workAuthorsIn A w).Nodup := hnd.filter _
  have hB : (workAuthorsIn B w).Nodup := hnd.filter _
  exact ⟨fun x y hxy => count_withinKeys _ hA x y hxy,
    fun x => count_withinKeys_diag _ hA x,
    fun a b => count_crossEvents _ _ hA hB a b⟩

theorem C4_per_record_increments_witness :
    (Work.mk ["A1", "A2", "B1"]).authors.Nodup ∧
      ((∀ x y : String, x ≠ y →
        (withinRecordKeys ["A1", "A2"] (Work.mk ["A1", "A2", "B1"])).count (sortPair x y)
          = if x ∈ workAuthorsIn ["A1", "A2"] (Work.mk ["A1", "A2", "B1"])
              ∧ y ∈ workAuthorsIn ["A1", "A2"] (Work.mk ["A1", "A2", "B1"]) then 1 else 0)
      ∧ (∀ x : String,
        (withinRecordKeys ["A1", "A2"] (Work.mk ["A1", "A2", "B1"])).count (x, x) = 0)
      ∧ (∀ a b : String,
        (crossRecordEvents ["A1", "A2"] ["B1"] (Work.mk ["A1", "A2", "B1"])).count (a, b)
          = if a ∈ workAuthorsIn ["A1", "A2"] (Work.mk ["A1", "A2", "B1"])
              ∧ b ∈ workAuthorsIn ["B1"] (Work.mk ["A1", "A2", "B1"]) ∧ a ≠ b then 1 else 0)) :=
  ⟨by decide, C4_per_record_increments ["A1", "A2"] ["B1"] (Work.mk ["A1", "A2", "B1"]) (by decide)⟩

/-! Graph model (src/models/network.py).

`NetworkBase` holds three containers: `self.nodes` (a Python dict from
node id to `Node`, insertion-ordered, assignment overwrites in place),
`self.edges` (a plain list of `Edge` objects), and `self.graph` (an
undirected `networkx.Graph`, modelled by its node set and its set of
undirected adjacencies; `add_edge` on an existing adjacency — in either
orientation — only updates attributes and does not grow the edge set).
A raw node entry is `none` when the Python value is `None`/not a dict;
an id equal to `""` models a falsy (missing or empty) `id` field; the
`Option Int` fields model values failing the `isinstance` checks. -/

structure Node where
  id : String
  label : String
  nodeType : String
  title : String
  year : Int
  citationCount : Int
deriving DecidableEq

structure Edge where
  source : String
  target : String
  edgeType : String
  weight : Int
deriving DecidableEq

structure RawNodeData where
  id : String
  title : String
  citedByCount : Option Int
  year : Option Int
deriving DecidableEq

abbrev RawNode := Option RawNodeData

structure RawEdgeData where
  source : String
  target : String
  weight : Int
deriving DecidableEq

abbrev RawEdge := Option RawEdgeData

structure NetworkState where
  nodes : List (String × Node)
  edges : List Edge
  graphNodes : List String
  graphEdges : List (String × String)
deriving DecidableEq

def emptyNetwork : NetworkState := ⟨[], [], [], []⟩

def containsKey : List (String × Node) → String → Bool
  | [], _ => false
  | p :: m, k => if p.1 = k then true else containsKey m k

def lookupNode : List (String × Node) → String → Option Node
  | [], _ => none
  | p :: m, k => if p.1 = k then some p.2 else lookupNode m k

/-- Python dict assignment `self.nodes[node.id] = node`: overwrite in
place when the key exists, append otherwise. -/
def dictInsert (m : List (String × Node)) (k : String) (v : Node) : List (String × Node) :=
  if containsKey m k then m.map (fun p => if p.1 = k then (k, v) else p)
  else m ++ [(k, v)]

/-- Python set insertion / `networkx` `add_node`. -/
def insertNew (l : List String) (x : String) : List String :=
  if x ∈ l then l else l ++ [x]

/-- Models `networkx.Graph.add_edge` on the adjacency set: a new undirected
adjacency is added only if neither orientation is already present. -/
def graphAddEdgePair (ge : List (String × String)) (u v : String) : List (String × String) :=
  if (u, v) ∈ ge ∨ (v, u) ∈ ge then ge else ge ++ [(u, v)]

/-- Embeds `NetworkBase.add_node` (network.py lines 51-54). -/
def addNode (st : NetworkState) (n : Node) : NetworkState :=
  { st with nodes := dictInsert st.nodes n.id n, graphNodes := insertNew st.graphNodes n.id }

/-- Embeds `NetworkBase.add_edge` (lines 56-59): append to `self.edges`, then
`graph.add_edge` (which also inserts missing endpoints as graph nodes). -/
def addEdge (st : NetworkState) (e : Edge) : NetworkState :=
  { st with
    edges := st.edges ++ [e]
    graphNodes := insertNew (insertNew st.graphNodes e.source) e.target
    graphEdges := graphAddEdgePair st.graphEdges e.source e.target }

/-- Node construction of the OpenAlex build paths (lines 493-516 in the
generator variant; lines 248-272 differ only in reading `year` instead
of `publication_year`, which the embedding does not distinguish). -/
def mkPaperNode (d : RawNodeData) : Node :=
  { id := d.id
    label := (if d.title = "" then "Unknown" else d.title).take 50
    nodeType := "paper"
    title := if d.title = "" then "Unknown" else d.title
    year := d.year.getD 2020
    citationCount := d.citedByCount.getD 0 }

/-- Phase 1 of `build_from_openalex_streaming_generator` (lines
476-526): skip invalid entries and falsy ids, skip ids already seen
(lines 487-489, first occurrence wins), otherwise record the id and add
the node. -/
def genAddNodes : NetworkState → List String → List RawNode → NetworkState × List String
  | st, validIds, [] => (st, validIds)
  | st, validIds, none :: rest => genAddNodes st validIds rest
  | st, validIds, some d :: rest =>
    if d.id = "" then genAddNodes st validIds rest
    else if d.id ∈ validIds then genAddNodes st validIds rest
    else genAddNodes (addNode st (mkPaperNode d)) (validIds ++ [d.id]) rest

/-- The node phase of `build_from_openalex` (lines 234-277): same
validation but no duplicate check — `add_node` simply overwrites. -/
def oaAddNodes : NetworkState → List String → List RawNode → NetworkState × List String
  | st, validIds, [] => (st, validIds)
  | st, validIds, none :: rest => oaAddNodes st validIds rest
  | st, validIds, some d :: rest =>
    if d.id = "" then oaAddNodes st validIds rest
    else oaAddNodes (addNode st (mkPaperNode d)) (insertNew validIds d.id) rest

/-- Models one step of `edge_weights[edge_key] = edge_weights.get(edge_key, 0) + weight`
(lines 300-301, 553-554). -/
def addWeight (m : List ((String × String) × Int)) (k : String × String) (w : Int) :
    List ((String × String) × Int) :=
  if m.any (fun p => p.1 = k) then m.map (fun p => if p.1 = k then (k, p.2 + w) else p)
  else m ++ [(k, w)]

/-- Phase 2 of both OpenAlex edge loops (lines 286-301 and 538-554):
skip invalid candidates and falsy endpoints, keep a candidate only when
both endpoints are known valid node ids, and accumulate its weight under
the ordered `(source, target)` key. -/
def accumEdgeWeights (validIds : List String) :
    List ((String × String) × Int) → List RawEdge → List ((String × String) × Int)
  | acc, [] => acc
  | acc, none :: rest => accumEdgeWeights validIds acc rest
  | acc, some e :: rest =>
    if e.source = "" ∨ e.target = "" then accumEdgeWeights validIds acc rest
    else if e.source ∈ validIds ∧ e.target ∈ validIds then
      accumEdgeWeights validIds (addWeight acc (e.source, e.target) e.weight) rest
    else accumEdgeWeights validIds acc rest

def mkCitesEdge (k : String × String) (w : Int) : Edge := ⟨k.1, k.2, "cites", w⟩

/-- Phase 3 (lines 306-315, 576-586): materialize an `Edge` for every
accumulated pair whose weight reaches `min_citations`. -/
def addWeightedEdges (st : NetworkState) (ws : List ((String × String) × Int))
    (minCitations : Int) : NetworkState :=
  ws.foldl (fun s p => if minCitations ≤ p.2 then addEdge s (mkCitesEdge p.1 p.2) else s) st

/-- Phase 4 of the generator build (lines 588-599): any valid id missing
from the graph but present in `self.nodes` is added as an isolated graph
node. -/
def ensureIsolated (st : NetworkState) (validIds : List String) : NetworkState :=
  validIds.foldl
    (fun s id =>
      if id ∈ s.graphNodes then s
      else if containsKey s.nodes id then { s with graphNodes := s.graphNodes ++ [id] }
      else s) st

/-- Embeds `CitationNetwork.build_from_openalex_streaming_generator` (lines
442-601).  An empty node list returns immediately (lines 466-468). -/
def buildFromOpenalexStreamingGenerator (raws : List RawNode) (cands : List RawEdge)
    (minCitations : Int) : NetworkState :=
  match raws with
  | [] => emptyNetwork
  | _ :: _ =>
    let r := genAddNodes emptyNetwork [] raws
    ensureIsolated (addWeightedEdges r.1 (accumEdgeWeights r.2 [] cands) minCitations) r.2

/-- Embeds `CitationNetwork.build_from_openalex` (lines 211-317): same node
validation without the duplicate check, the same edge accumulation, and
no isolated-node phase (`add_node` already put every valid node in the
graph); an empty edge list returns right after the node phase. -/
def buildFromOpenalex (raws : List RawNode) (cands : List RawEdge)
    (minCitations : Int) : NetworkState :=
  match raws with
  | [] => emptyNetwork
  | _ :: _ =>
    let r := oaAddNodes emptyNetwork [] raws
    match cands with
    | [] => r.1
    | _ :: _ => addWeightedEdges r.1 (accumEdgeWeights r.2 [] cands) minCitations

/-! The C6 scenario: nodes W1, W2, W3; candidates (W1,W2,1), (W1,W2,1),
(W1,W9,1); minimum weight 2. -/

def c6Nodes : List RawNode :=
  [some ⟨"W1", "T1", some 0, some 2020⟩,
   some ⟨"W2", "T2", some 0, some 2020⟩,
   some ⟨"W3", "T3", some 0, some 2020⟩]

def c6Cands : List RawEdge :=
  [some ⟨"W1", "W2", 1⟩, some ⟨"W1", "W2", 1⟩, some ⟨"W1", "W9", 1⟩]

/-- C6: building from nodes W1, W2, W3 and edge candidates
(W1,W2,1), (W1,W2,1), (W1,W9,1) at minimum weight 2 yields exactly the
three nodes, exactly one materialized edge W1–W2 with weight 2, one
graph adjacency, and W3 kept in the graph as an isolated node; the
W1–W9 candidate (unknown endpoint W9) is dropped without affecting the
W1–W2 weight. -/
theorem C6_streaming_scenario :
    (buildFromOpenalexStreamingGenerator c6Nodes c6Cands 2).nodes.map Prod.fst
        = ["W1", "W2", "W3"]
    ∧ (buildFromOpenalexStreamingGenerator c6Nodes c6Cands 2).edges
        = [Edge.mk "W1" "W2" "cites" 2]
    ∧ (buildFromOpenalexStreamingGenerator c6Nodes c6Cands 2).graphNodes
        = ["W1", "W2", "W3"]
    ∧ (buildFromOpenalexStreamingGenerator c6Nodes c6Cands 2).graphEdges
        = [("W1", "W2")] := by
  decide

/-! Node-deduplication semantics (claim C5). -/

/-- The validation filter of both node phases: `None`/non-dict entries
and falsy ids are skipped. -/
def validData : RawNode → Option RawNodeData
  | none => none
  | some d => if d.id = "" then none else some d

def validList (raws : List RawNode) : List RawNodeData := raws.filterMap validData

theorem containsKey_true_iff (m : List (String × Node)) (k : String) :
    containsKey m k = true ↔ k ∈ m.map Prod.fst := by
  induction m with
  | nil => simp [containsKey]
  | cons p m ih =>
    rw [containsKey, List.map_cons, List.mem_cons]
    by_cases h : p.1 = k
    · rw [if_pos h]
      exact ⟨fun _ => Or.inl h.symm, fun _ => rfl⟩
    · rw [if_neg h, ih]
      constructor
      · exact Or.inr
      · intro hor
        rcases hor with he | hm
        · exact absurd he.symm h
        · exact hm

theorem containsKey_false_iff (m : List (String × Node)) (k : String) :
    containsKey m k = false ↔ k ∉ m.map Prod.fst := by
  rw [← containsKey_true_iff]
  cases containsKey m k <;> simp

theorem lookupNode_not_mem (m : List (String × Node)) (k : String)
    (h : k ∉ m.map Prod.fst) : lookupNode m k = none := by
  induction m with
  | nil => rfl
  | cons p m ih =>
    simp only [List.map_cons, List.mem_cons, not_or] at h
    rw [lookupNode, if_neg (fun he => h.1 he.symm)]
    exact ih h.2

theorem lookup_map_overwrite_self (k : String) (v : Node) :
    ∀ m : List (String × Node), containsKey m k = true →
      lookupNode (m.map (fun p => if p.1 = k then (k, v) else p)) k = some v := by
  intro m
  induction m with
  | nil => intro h; simp [containsKey] at h
  | cons p m ih =>
    intro h
    by_cases hp : p.1 = k
    · rw [List.map_cons, if_pos hp, lookupNode, if_pos rfl]
    · rw [containsKey, if_neg hp] at h
      rw [List.map_cons, if_neg hp, lookupNode, if_neg hp]
      exact ih h

theorem lookup_append_self (k : String) (v : Node) :
    ∀ m : List (String × Node), containsKey m k = false →
      lookupNode (m ++ [(k, v)]) k = some v := by
  intro m
  induction m with
  | nil => intro _; rw [List.nil_append, lookupNode, if_pos rfl]
  | cons p m ih =>
    intro h
    rw [containsKey] at h
    by_cases hp : p.1 = k
    · rw [if_pos hp] at h; exact absurd h (by simp)
    · rw [if_neg hp] at h
      rw [List.cons_append, lookupNode, if_neg hp]
      exact ih h

theorem dictInsert_lookup_self (m : List (String × Node)) (k : String) (v : Node) :
    lookupNode (dictInsert m k v) k = some v := by
  rw [dictInsert]
  by_cases h : containsKey m k = true
  · rw [if_pos h]
    exact lookup_map_overwrite_self k v m h
  · rw [if_neg h]
    exact lookup_append_self k v m (by simpa using h)

theorem lookup_map_overwrite_other (k k' : String) (v : Node) (hne : k' ≠ k) :
    ∀ m : List (String × Node),
      lookupNode (m.map (fun p => if p.1 = k then (k, v) else p)) k' = lookupNode m k' := by
  intro m
  induction m with
  | nil => rfl
  | cons p m ih =>
    by_cases hp : p.1 = k
    · have h1 : ¬ (k = k') := fun he => hne he.symm
      have h2 : ¬ (p.1 = k') := by rw [hp]; exact h1
      rw [List.map_cons, if_pos hp, lookupNode, if_neg h1, lookupNode, if_neg h2]
      exact ih
    · by_cases hpk : p.1 = k'
      · rw [List.map_cons, if_neg hp, lookupNode, if_pos hpk, lookupNode, if_pos hpk]
      · rw [List.map_cons, if_neg hp, lookupNode, if_neg hpk, lookupNode, if_neg hpk]
        exact ih

theorem lookup_append_other (k k' : String) (v : Node) (hne : k' ≠ k) :
    ∀ m : List (String × Node), lookupNode (m ++ [(k, v)]) k' = lookupNode m k' := by
  intro m
  induction m with
  | nil =>
    have hnk : ¬ (k = k') := fun he => hne he.symm
    simp only [List.nil_append, lookupNode, if_neg hnk]
  | cons p m ih =>
    by_cases hpk : p.1 = k'
    · rw [List.cons_append, lookupNode, if_pos hpk, lookupNode, if_pos hpk]
    · rw [List.cons_append, lookupNode, if_neg hpk, lookupNode, if_neg hpk]
      exact ih

theorem dictInsert_lookup_other (m : List (String × Node)) (k k' : String) (v : Node)
    (h : k' ≠ k) : lookupNode (dictInsert m k v) k' = lookupNode m k' := by
  rw [dictInsert]
  split_ifs with hc
  · exact lookup_map_overwrite_other k k' v h m
  · exact lookup_append_other k k' v h m

theorem dictInsert_keys_present (m : List (String × Node)) (k : String) (v : Node)
    (h : containsKey m k = true) :
    (dictInsert m k v).map Prod.fst = m.map Prod.fst := by
  rw [dictInsert, if_pos h, List.map_map]
  apply List.map_congr_left
  intro p _
  by_cases hp : p.1 = k <;> simp [hp]

theorem dictInsert_keys_absent (m : List (String × Node)) (k : String) (v : Node)
    (h : containsKey m k = false) :
    (dictInsert m k v).map Prod.fst = m.map Prod.fst ++ [k] := by
  rw [dictInsert, if_neg (by simp [h]), List.map_append]
  rfl

theorem addWeightedEdges_nodes (ws : List ((String × String) × Int)) :
    ∀ (st : NetworkState) (minC : Int), (addWeightedEdges st ws minC).nodes = st.nodes := by
  induction ws with
  | nil => intro st minC; rfl
  | cons p rest ih =>
    intro st minC
    rw [addWeightedEdges, List.foldl_cons]
    by_cases h : minC ≤ p.2
    · rw [if_pos h]
      exact (ih _ minC).trans rfl
    · rw [if_neg h]
      exact ih st minC

theorem ensureIsolated_nodes (vids : List String) :
    ∀ st : NetworkState, (ensureIsolated st vids).nodes = st.nodes := by
  induction vids with
  | nil => intro st; rfl
  | cons id rest ih =>
    intro st
    rw [ensureIsolated, List.foldl_cons]
    split_ifs <;> exact ih _

theorem validList_cons_none (rest : List RawNode) :
    validList (none :: rest) = validList rest := rfl

theorem validList_cons_invalid (d : RawNodeData) (rest : List RawNode) (h : d.id = "") :
    validList (some d :: rest) = validList rest := by
  simp [validList, List.filterMap_cons, validData, h]

theorem validList_cons_valid (d : RawNodeData) (rest : List RawNode) (h : ¬ d.id = "") :
    validList (some d :: rest) = d :: validList rest := by
  simp [validList, List.filterMap_cons, validData, h]

theorem genAddNodes_spec :
    ∀ (raws : List RawNode) (st : NetworkState) (vids : List String),
      st.nodes.map Prod.fst = vids →
      ((genAddNodes st vids raws).1.nodes.map Prod.fst = (genAddNodes st vids raws).2
        ∧ (∀ id, id ∈ vids →
            lookupNode (genAddNodes st vids raws).1.nodes id = lookupNode st.nodes id)
        ∧ (∀ id, id ∉ vids →
            lookupNode (genAddNodes st vids raws).1.nodes id
              = ((validList raws).find? (fun d => d.id = id)).map mkPaperNode)) := by
  intro raws
  induction raws with
  | nil =>
    intro st vids hkeys
    refine ⟨hkeys, fun id _ => rfl, fun id hnot => ?_⟩
    simp only [validList, List.filterMap_nil, List.find?_nil, Option.map_none]
    show lookupNode st.nodes id = none
    exact lookupNode_not_mem st.nodes id (by rw [hkeys]; exact hnot)
  | cons raw rest ih =>
    intro st vids hkeys
    match raw with
    | none =>
      rw [show genAddNodes st vids (none :: rest) = genAddNodes st vids rest from rfl,
        validList_cons_none]
      exact ih st vids hkeys
    | some d =>
      by_cases hid : d.id = ""
      · rw [show genAddNodes st vids (some d :: rest)
            = if d.id = "" then genAddNodes st vids rest
              else if d.id ∈ vids then genAddNodes st vids rest
              else genAddNodes (addNode st (mkPaperNode d)) (vids ++ [d.id]) rest from rfl,
          if_pos hid, validList_cons_invalid d rest hid]
        exact ih st vids hkeys
      · by_cases hmem : d.id ∈ vids
        · rw [show genAddNodes st vids (some d :: rest)
              = if d.id = "" then genAddNodes st vids rest
                else if d.id ∈ vids then genAddNodes st vids rest
                else genAddNodes (addNode st (mkPaperNode d)) (vids ++ [d.id]) rest from rfl,
            if_neg hid, if_pos hmem, validList_cons_valid d rest hid]
          obtain ⟨h1, h2, h3⟩ := ih st vids hkeys
          refine ⟨h1, h2, fun id hnot => ?_⟩
          have hne : ¬ d.id = id := fun he => hnot (he ▸ hmem)
          rw [h3 id hnot, List.find?_cons_of_neg _ (by simpa using hne)]
        · rw [show genAddNodes st vids (some d :: rest)
              = if d.id = "" then genAddNodes st vids rest
                else if d.id ∈ vids then genAddNodes st vids rest
                else genAddNodes (addNode st (mkPaperNode d)) (vids ++ [d.id]) rest from rfl,
            if_neg hid, if_neg hmem, validList_cons_valid d rest hid]
          have hck : containsKey st.nodes d.id = false :=
            (containsKey_false_iff _ _).mpr (hkeys ▸ hmem)
          have hkeys' : (addNode st (mkPaperNode d)).nodes.map Prod.fst = vids ++ [d.id] := by
            simp only [addNode]
            rw [show (mkPaperNode d).id = d.id from rfl, dictInsert_keys_absent _ _ _ hck, hkeys]
          obtain ⟨h1, h2, h3⟩ := ih (addNode st (mkPaperNode d)) (vids ++ [d.id]) hkeys'
          refine ⟨h1, fun id hm => ?_, fun id hnot => ?_⟩
          · rw [h2 id (List.mem_append_left _ hm)]
            have hne : id ≠ d.id := fun he => (hkeys ▸ hmem : d.id ∉ st.nodes.map Prod.fst)
              (he ▸ (hkeys ▸ hm : id ∈ st.nodes.map Prod.fst))
            simp only [addNode]
            exact dictInsert_lookup_other st.nodes d.id id (mkPaperNode d) hne
          · by_cases heq : d.id = id
            · subst heq
              rw [h2 d.id (by simp), List.find?_cons_of_pos _ (by simp)]
              simp only [addNode, Option.map_some]
              exact dictInsert_lookup_self st.nodes d.id (mkPaperNode d)
            · have hnot' : id ∉ vids ++ [d.id] := by
                simp only [List.mem_append, List.mem_singleton, not_or]
                exact ⟨hnot, fun he => heq he.symm⟩
              rw [h3 id hnot', List.find?_cons_of_neg _ (by simpa using heq)]

theorem genAddNodes_vids_nodup :
    ∀ (raws : List RawNode) (st : NetworkState) (vids : List String),
      vids.Nodup → (genAddNodes st vids raws).2.Nodup := by
  intro raws
  induction raws with
  | nil => intro st vids h; exact h
  | cons raw rest ih =>
    intro st vids h
    match raw with
    | none => exact ih st vids h
    | some d =>
      by_cases hid : d.id = ""
      · rw [show genAddNodes st vids (some d :: rest)
            = if d.id = "" then genAddNodes st vids rest
              else if d.id ∈ vids then genAddNodes st vids rest
              else genAddNodes (addNode st (mkPaperNode d)) (vids ++ [d.id]) rest from rfl,
          if_pos hid]
        exact ih st vids h
      · by_cases hmem : d.id ∈ vids
        · rw [show genAddNodes st vids (some d :: rest)
              = if d.id = "" then genAddNodes st vids rest
                else if d.id ∈ vids then genAddNodes st vids rest
                else genAddNodes (addNode st (mkPaperNode d)) (vids ++ [d.id]) rest from rfl,
            if_neg hid, if_pos hmem]
          exact ih st vids h
        · rw [show genAddNodes st vids (some d :: rest)
              = if d.id = "" then genAddNodes st vids rest
                else if d.id ∈ vids then genAddNodes st vids rest
                else genAddNodes (addNode st (mkPaperNode d)) (vids ++ [d.id]) rest from rfl,
            if_neg hid, if_neg hmem]
          apply ih
          simp [List.nodup_append, h, hmem]

theorem oaAddNodes_lookup :
    ∀ (raws : List RawNode) (st : NetworkState) (vids : List String) (id : String),
      lookupNode (oaAddNodes st vids raws).1.nodes id
        = (((validList raws).reverse.find? (fun d => d.id = id)).map mkPaperNode).or
            (lookupNode st.nodes id) := by
  intro raws
  induction raws with
  | nil =>
    intro st vids id
    simp [oaAddNodes, validList]
  | cons raw rest ih =>
    intro st vids id
    match raw with
    | none =>
      rw [show oaAddNodes st vids (none :: rest) = oaAddNodes st vids rest from rfl,
        validList_cons_none]
      exact ih st vids id
    | some d =>
      by_cases hid : d.id = ""
      · rw [show oaAddNodes st vids (some d :: rest)
            = if d.id = "" then oaAddNodes st vids rest
              else oaAddNodes (addNode st (mkPaperNode d)) (insertNew vids d.id) rest from rfl,
          if_pos hid, validList_cons_invalid d rest hid]
        exact ih st vids id
      · rw [show oaAddNodes st vids (some d :: rest)
            = if d.id = "" then oaAddNodes st vids rest
              else oaAddNodes (addNode st (mkPaperNode d)) (insertNew vids d.id) rest from rfl,
          if_neg hid, validList_cons_valid d rest hid, ih]
        rw [List.reverse_cons, List.find?_append]
        cases hfind : (validList rest).reverse.find? (fun d => d.id = id) with
        | some d' => simp [hfind]
        | none =>
          simp only [hfind, Option.none_orElse, Option.map_none, Option.none_or]
          by_cases heq : d.id = id
          · subst heq
            rw [List.find?_cons_of_pos _ (by simp)]
            exact dictInsert_lookup_self st.nodes d.id (mkPaperNode d)
          · rw [List.find?_cons_of_neg _ (by simpa using heq), List.find?_nil]
            simp only [addNode, Option.map_none, Option.none_or]
            exact dictInsert_lookup_other st.nodes d.id id (mkPaperNode d)
              (fun he => heq he.symm)

theorem oaAddNodes_inv :
    ∀ (raws : List RawNode) (st : NetworkState) (vids : List String),
      st.nodes.map Prod.fst = vids → vids.Nodup →
      ((oaAddNodes st vids raws).1.nodes.map Prod.fst = (oaAddNodes st vids raws).2
        ∧ (oaAddNodes st vids raws).2.Nodup) := by
  intro raws
  induction raws with
  | nil => intro st vids h hn; exact ⟨h, hn⟩
  | cons raw rest ih =>
    intro st vids h hn
    match raw with
    | none => exact ih st vids h hn
    | some d =>
      by_cases hid : d.id = ""
      · rw [show oaAddNodes st vids (some d :: rest)
            = if d.id = "" then oaAddNodes st vids rest
              else oaAddNodes (addNode st (mkPaperNode d)) (insertNew vids d.id) rest from rfl,
          if_pos hid]
        exact ih st vids h hn
      · rw [show oaAddNodes st vids (some d :: rest)
            = if d.id = "" then oaAddNodes st vids rest
              else oaAddNodes (addNode st (mkPaperNode d)) (insertNew vids d.id) rest from rfl,
          if_neg hid]
        by_cases hmem : d.id ∈ vids
        · have hck : containsKey st.nodes d.id = true := by
            rcases Bool.eq_false_or_eq_true (containsKey st.nodes d.id) with ht | hf
            · exact ht
            · exact absurd (h ▸ (containsKey_false_iff _ _).mp hf) (by simpa using hmem)
          apply ih
          · simp only [addNode]
            rw [show (mkPaperNode d).id = d.id from rfl, dictInsert_keys_present _ _ _ hck, h,
              insertNew, if_pos hmem]
          · rw [insertNew, if_pos hmem]; exact hn
        · have hck : containsKey st.nodes d.id = false :=
            (containsKey_false_iff _ _).mpr (h ▸ hmem)
          apply ih
          · simp only [addNode]
            rw [show (mkPaperNode d).id = d.id from rfl, dictInsert_keys_absent _ _ _ hck, h,
              insertNew, if_neg hmem]
          · rw [insertNew, if_neg hmem]
            simp [List.nodup_append, hn, hmem]

/-- First- vs last-occurrence records for the two builders. -/
def c5First : RawNodeData := ⟨"W1", "A", some 0, some 2020⟩

def c5Second : RawNodeData := ⟨"W1", "B", some 0, some 2020⟩

set_option maxRecDepth 8000 in
/-- C5 counterexample: `build_from_openalex` does not implement
first-seen-wins.  Feeding the same id twice, the node retained in the
built graph is the one constructed from the second occurrence, which
differs from the first occurrence's node — the later duplicate
overwrites the already-inserted node. -/
theorem C5_counterexample_last_wins :
    lookupNode (buildFromOpenalex [some c5First, some c5Second] [] 1).nodes "W1"
        = some (mkPaperNode c5Second)
    ∧ mkPaperNode c5Second ≠ mkPaperNode c5First := by
  decide

/-- C5 (amended): every build produces exactly one node per distinct
valid id (the key list of the node map is duplicate-free), but the
builders disagree on which occurrence survives: the streaming-generator
build keeps the node constructed from the first valid occurrence of an
id and drops later duplicates, while `build_from_openalex` has no
duplicate check and a later duplicate overwrites, leaving the node of
the last valid occurrence. -/
theorem C5_node_dedup_semantics (raws : List RawNode) (cands : List RawEdge)
    (minC : Int) (id : String) :
    ((buildFromOpenalexStreamingGenerator raws cands minC).nodes.map Prod.fst).Nodup
    ∧ lookupNode (buildFromOpenalexStreamingGenerator raws cands minC).nodes id
        = ((validList raws).find? (fun d => d.id = id)).map mkPaperNode
    ∧ ((buildFromOpenalex raws cands minC).nodes.map Prod.fst).Nodup
    ∧ lookupNode (buildFromOpenalex raws cands minC).nodes id
        = ((validList raws).reverse.find? (fun d => d.id = id)).map mkPaperNode := by
  match raws with
  | [] =>
    refine ⟨by simp [buildFromOpenalexStreamingGenerator, emptyNetwork], ?_,
      by simp [buildFromOpenalex, emptyNetwork], ?_⟩ <;>
      simp [buildFromOpenalexStreamingGenerator, buildFromOpenalex, emptyNetwork, validList,
        lookupNode]
  | raw :: rest =>
    constructor
    · rw [buildFromOpenalexStreamingGenerator]
      rw [ensureIsolated_nodes, addWeightedEdges_nodes]
      obtain ⟨h1, _, _⟩ := genAddNodes_spec (raw :: rest) emptyNetwork [] rfl
      rw [h1]
      exact genAddNodes_vids_nodup (raw :: rest) emptyNetwork [] List.nodup_nil
    constructor
    · rw [buildFromOpenalexStreamingGenerator]
      rw [ensureIsolated_nodes, addWeightedEdges_nodes]
      obtain ⟨_, _, h3⟩ := genAddNodes_spec (raw :: rest) emptyNetwork [] rfl
      exact h3 id (by simp)
    constructor
    · obtain ⟨h1, h2⟩ := oaAddNodes_inv (raw :: rest) emptyNetwork [] rfl List.nodup_nil
      match cands with
      | [] =>
        show ((oaAddNodes emptyNetwork [] (raw :: rest)).1.nodes.map Prod.fst).Nodup
        rw [h1]; exact h2
      | c :: cs =>
        show (((addWeightedEdges (oaAddNodes emptyNetwork [] (raw :: rest)).1
            (accumEdgeWeights (oaAddNodes emptyNetwork [] (raw :: rest)).2 [] (c :: cs))
            minC).nodes).map Prod.fst).Nodup
        rw [addWeightedEdges_nodes, h1]; exact h2
    · have hlook := oaAddNodes_lookup (raw :: rest) emptyNetwork [] id
      have hempty : lookupNode emptyNetwork.nodes id = none := rfl
      rw [hempty, Option.or_none] at hlook
      match cands with
      | [] =>
        show lookupNode (oaAddNodes emptyNetwork [] (raw :: rest)).1.nodes id
          = ((validList (raw :: rest)).reverse.find? (fun d => d.id = id)).map mkPaperNode
        exact hlook
      | c :: cs =>
        show lookupNode (addWeightedEdges (oaAddNodes emptyNetwork [] (raw :: rest)).1
            (accumEdgeWeights (oaAddNodes emptyNetwork [] (raw :: rest)).2 [] (c :: cs))
            minC).nodes id
          = ((validList (raw :: rest)).reverse.find? (fun d => d.id = id)).map mkPaperNode
        rw [addWeightedEdges_nodes]; exact hlook

/-! Reported statistics (claim C7).

`NetworkBase.to_json` (network.py lines 90-116) reports
`total_nodes = len(self.nodes)`, `total_edges = len(self.edges)`,
`network_density = nx.density(self.graph)` and an average degree.
`nx.density` works on the underlying undirected graph: for `n` graph
nodes and `m` graph edges it returns `0` when `m = 0` or `n ≤ 1` and
`2m / (n(n-1))` otherwise.  `CitationNetwork.get_network_statistics`
(lines 604-617) reports the same `nx.density` value. -/

def nxDensity (st : NetworkState) : ℚ :=
  if st.graphEdges.length = 0 ∨ st.graphNodes.length ≤ 1 then 0
  else 2 * (st.graphEdges.length : ℚ)
    / ((st.graphNodes.length : ℚ) * ((st.graphNodes.length : ℚ) - 1))

/-- Models the `networkx` node degree: incident edge ends (a self-loop counts
twice). -/
def degreeOf (st : NetworkState) (v : String) : ℕ :=
  st.graphEdges.foldl
    (fun n p => n + (if p.1 = v then 1 else 0) + (if p.2 = v then 1 else 0)) 0

structure JsonMetadata where
  totalNodes : ℕ
  totalEdges : ℕ
  networkDensity : ℚ
  avgDegree : ℚ
deriving DecidableEq

/-- The `metadata` object of `NetworkBase.to_json` (lines 107-116). -/
def toJsonMetadata (st : NetworkState) : JsonMetadata :=
  { totalNodes := st.nodes.length
    totalEdges := st.edges.length
    networkDensity := nxDensity st
    avgDegree := if st.graphNodes.length = 0 then 0
      else ((st.graphNodes.map (degreeOf st)).sum : ℚ) / (st.graphNodes.length : ℚ) }

def canonPair (p : String × String) : String × String := sortPair p.1 p.2

def edgeCanon (e : Edge) : String × String := sortPair e.source e.target

theorem mem_orientation_iff (ge : List (String × String)) (u v : String) :
    ((u, v) ∈ ge ∨ (v, u) ∈ ge) ↔ canonPair (u, v) ∈ ge.map canonPair := by
  constructor
  · intro h
    rcases h with h | h
    · exact List.mem_map.mpr ⟨(u, v), h, rfl⟩
    · refine List.mem_map.mpr ⟨(v, u), h, ?_⟩
      show sortPair v u = sortPair u v
      exact sortPair_swap v u
  · intro h
    obtain ⟨q, hq, he⟩ := List.mem_map.mp h
    rcases (sortPair_eq_iff q.1 q.2 u v).mp he with ⟨h1, h2⟩ | ⟨h1, h2⟩
    · exact Or.inl ((Prod.ext_iff.mpr ⟨h1, h2⟩ : q = (u, v)) ▸ hq)
    · exact Or.inr ((Prod.ext_iff.mpr ⟨h1, h2⟩ : q = (v, u)) ▸ hq)

theorem addWeightedEdges_spec (ws : List ((String × String) × Int)) :
    ∀ (st : NetworkState) (minC : Int),
      (addWeightedEdges st ws minC).edges
        = st.edges ++ (ws.filter (fun p => minC ≤ p.2)).map (fun p => mkCitesEdge p.1 p.2)
      ∧ (addWeightedEdges st ws minC).graphEdges
        = (ws.filter (fun p => minC ≤ p.2)).foldl
            (fun ge p => graphAddEdgePair ge p.1.1 p.1.2) st.graphEdges
      ∧ (addWeightedEdges st ws minC).graphNodes
        = (ws.filter (fun p => minC ≤ p.2)).foldl
            (fun gn p => insertNew (insertNew gn p.1.1) p.1.2) st.graphNodes := by
  induction ws with
  | nil => intro st minC; exact ⟨by simp [addWeightedEdges], rfl, rfl⟩
  | cons p rest ih =>
    intro st minC
    rw [addWeightedEdges, List.foldl_cons, List.filter_cons]
    by_cases h : minC ≤ p.2
    · rw [if_pos h, if_pos (by simpa using h)]
      obtain ⟨h1, h2, h3⟩ := ih (addEdge st (mkCitesEdge p.1 p.2)) minC
      refine ⟨?_, ?_, ?_⟩
      · rw [show addWeightedEdges (addEdge st (mkCitesEdge p.1 p.2)) rest minC
            = rest.foldl (fun s q => if minC ≤ q.2 then addEdge s (mkCitesEdge q.1 q.2) else s)
                (addEdge st (mkCitesEdge p.1 p.2)) from rfl] at h1
        rw [h1, List.map_cons]
        simp [addEdge]
      · rw [show addWeightedEdges (addEdge st (mkCitesEdge p.1 p.2)) rest minC
            = rest.foldl (fun s q => if minC ≤ q.2 then addEdge s (mkCitesEdge q.1 q.2) else s)
                (addEdge st (mkCitesEdge p.1 p.2)) from rfl] at h2
        rw [h2, List.foldl_cons]
        rfl
      · rw [show addWeightedEdges (addEdge st (mkCitesEdge p.1 p.2)) rest minC
            = rest.foldl (fun s q => if minC ≤ q.2 then addEdge s (mkCitesEdge q.1 q.2) else s)
                (addEdge st (mkCitesEdge p.1 p.2)) from rfl] at h3
        rw [h3, List.foldl_cons]
        rfl
    · rw [if_neg h, if_neg (by simpa using h)]
      exact ih st minC

theorem insertNew_mem (gn : List String) (x : String) (h : x ∈ gn) : insertNew gn x = gn := by
  rw [insertNew, if_pos h]

theorem foldl_insertNew_subset (es : List ((String × String) × Int)) :
    ∀ gn : List String, (∀ p ∈ es, p.1.1 ∈ gn ∧ p.1.2 ∈ gn) →
      es.foldl (fun gn p => insertNew (insertNew gn p.1.1) p.1.2) gn = gn := by
  induction es with
  | nil => intro gn _; rfl
  | cons p rest ih =>
    intro gn h
    have hp := h p (by simp)
    rw [List.foldl_cons, insertNew_mem _ _ hp.1, insertNew_mem _ _ hp.2]
    exact ih gn (fun q hq => h q (List.mem_cons_of_mem _ hq))

theorem foldl_graphAddEdgePair_length (es : List ((String × String) × Int)) :
    ∀ ge : List (String × String),
      (es.map (fun p => canonPair p.1)).Nodup →
      (∀ p ∈ es, canonPair p.1 ∉ ge.map canonPair) →
      (es.foldl (fun ge p => graphAddEdgePair ge p.1.1 p.1.2) ge).length
        = ge.length + es.length := by
  induction es with
  | nil => intro ge _ _; simp
  | cons p rest ih =>
    intro ge hnd hdisj
    obtain ⟨hhead, hnd'⟩ := List.nodup_cons.mp hnd
    have hnot : canonPair (p.1.1, p.1.2) ∉ ge.map canonPair := by
      have := hdisj p (by simp)
      simpa using this
    rw [List.foldl_cons, graphAddEdgePair,
      if_neg (by rw [mem_orientation_iff]; exact hnot)]
    rw [ih (ge ++ [(p.1.1, p.1.2)]) hnd' ?_]
    · simp only [List.length_append, List.length_cons, List.length_nil]
      omega
    · intro q hq
      rw [List.map_append, List.mem_append]
      rintro (hin | hin)
      · exact (hdisj q (List.mem_cons_of_mem _ hq)) hin
      · simp only [List.map_cons, List.map_nil, List.mem_singleton] at hin
        apply hhead
        show canonPair p.1 ∈ rest.map (fun p => canonPair p.1)
        have hin' : canonPair q.1 = canonPair p.1 := hin
        rw [← hin']
        exact List.mem_map.mpr ⟨q, hq, rfl⟩

theorem accumEdgeWeights_key_bounds (cands : List RawEdge) :
    ∀ (vids : List String) (acc : List ((String × String) × Int)),
      (∀ p ∈ acc, p.1.1 ∈ vids ∧ p.1.2 ∈ vids) →
      ∀ p ∈ accumEdgeWeights vids acc cands, p.1.1 ∈ vids ∧ p.1.2 ∈ vids := by
  induction cands with
  | nil => intro vids acc h; exact h
  | cons c rest ih =>
    intro vids acc h
    match c with
    | none => exact ih vids acc h
    | some e =>
      by_cases h1 : e.source = "" ∨ e.target = ""
      · rw [show accumEdgeWeights vids acc (some e :: rest)
            = if e.source = "" ∨ e.target = "" then accumEdgeWeights vids acc rest
              else if e.source ∈ vids ∧ e.target ∈ vids then
                accumEdgeWeights vids (addWeight acc (e.source, e.target) e.weight) rest
              else accumEdgeWeights vids acc rest from rfl, if_pos h1]
        exact ih vids acc h
      · rw [show accumEdgeWeights vids acc (some e :: rest)
            = if e.source = "" ∨ e.target = "" then accumEdgeWeights vids acc rest
              else if e.source ∈ vids ∧ e.target ∈ vids then
                accumEdgeWeights vids (addWeight acc (e.source, e.target) e.weight) rest
              else accumEdgeWeights vids acc rest from rfl, if_neg h1]
        by_cases h2 : e.source ∈ vids ∧ e.target ∈ vids
        · rw [if_pos h2]
          apply ih
          intro p hp
          rw [addWeight] at hp
          split_ifs at hp with hc
          · obtain ⟨q, hq, he⟩ := List.mem_map.mp hp
            by_cases hqk : q.1 = (e.source, e.target)
            · rw [if_pos hqk] at he
              rw [← he]
              exact h2
            · rw [if_neg hqk] at he
              exact he ▸ h q hq
          · rw [List.mem_append] at hp
            rcases hp with hp | hp
            · exact h p hp
            · simp only [List.mem_singleton] at hp
              rw [hp]
              exact h2
        · rw [if_neg h2]
          exact ih vids acc h

theorem genAddNodes_graphNodes :
    ∀ (raws : List RawNode) (st : NetworkState) (vids : List String),
      st.nodes.map Prod.fst = vids → st.graphNodes = vids →
      ((genAddNodes st vids raws).1.graphNodes = (genAddNodes st vids raws).2
        ∧ (genAddNodes st vids raws).1.nodes.map Prod.fst = (genAddNodes st vids raws).2
        ∧ (genAddNodes st vids raws).1.edges = st.edges
        ∧ (genAddNodes st vids raws).1.graphEdges = st.graphEdges) := by
  intro raws
  induction raws with
  | nil => intro st vids hk hg; exact ⟨hg, hk, rfl, rfl⟩
  | cons raw rest ih =>
    intro st vids hk hg
    match raw with
    | none => exact ih st vids hk hg
    | some d =>
      by_cases hid : d.id = ""
      · rw [show genAddNodes st vids (some d :: rest)
            = if d.id = "" then genAddNodes st vids rest
              else if d.id ∈ vids then genAddNodes st vids rest
              else genAddNodes (addNode st (mkPaperNode d)) (vids ++ [d.id]) rest from rfl,
          if_pos hid]
        exact ih st vids hk hg
      · by_cases hmem : d.id ∈ vids
        · rw [show genAddNodes st vids (some d :: rest)
              = if d.id = "" then genAddNodes st vids rest
                else if d.id ∈ vids then genAddNodes st vids rest
                else genAddNodes (addNode st (mkPaperNode d)) (vids ++ [d.id]) rest from rfl,
            if_neg hid, if_pos hmem]
          exact ih st vids hk hg
        · rw [show genAddNodes st vids (some d :: rest)
              = if d.id = "" then genAddNodes st vids rest
                else if d.id ∈ vids then genAddNodes st vids rest
                else genAddNodes (addNode st (mkPaperNode d)) (vids ++ [d.id]) rest from rfl,
            if_neg hid, if_neg hmem]
          have hck : containsKey st.nodes d.id = false :=
            (containsKey_false_iff _ _).mpr (hk ▸ hmem)
          have hk' : (addNode st (mkPaperNode d)).nodes.map Prod.fst = vids ++ [d.id] := by
            simp only [addNode]
            rw [show (mkPaperNode d).id = d.id from rfl, dictInsert_keys_absent _ _ _ hck, hk]
          have hg' : (addNode st (mkPaperNode d)).graphNodes = vids ++ [d.id] := by
            simp only [addNode]
            rw [show (mkPaperNode d).id = d.id from rfl, insertNew, hg, if_neg hmem]
          exact ih (addNode st (mkPaperNode d)) (vids ++ [d.id]) hk' hg'

theorem oaAddNodes_graphNodes :
    ∀ (raws : List RawNode) (st : NetworkState) (vids : List String),
      st.nodes.map Prod.fst = vids → st.graphNodes = vids →
      ((oaAddNodes st vids raws).1.graphNodes = (oaAddNodes st vids raws).2
        ∧ (oaAddNodes st vids raws).1.nodes.map Prod.fst = (oaAddNodes st vids raws).2
        ∧ (oaAddNodes st vids raws).1.edges = st.edges
        ∧ (oaAddNodes st vids raws).1.graphEdges = st.graphEdges) := by
  intro raws
  induction raws with
  | nil => intro st vids hk hg; exact ⟨hg, hk, rfl, rfl⟩
  | cons raw rest ih =>
    intro st vids hk hg
    match raw with
    | none => exact ih st vids hk hg
    | some d =>
      by_cases hid : d.id = ""
      · rw [show oaAddNodes st vids (some d :: rest)
            = if d.id = "" then oaAddNodes st vids rest
              else oaAddNodes (addNode st (mkPaperNode d)) (insertNew vids d.id) rest from rfl,
          if_pos hid]
        exact ih st vids hk hg
      · rw [show oaAddNodes st vids (some d :: rest)
            = if d.id = "" then oaAddNodes st vids rest
              else oaAddNodes (addNode st (mkPaperNode d)) (insertNew vids d.id) rest from rfl,
          if_neg hid]
        by_cases hmem : d.id ∈ vids
        · have hck : containsKey st.nodes d.id = true := by
            rcases Bool.eq_false_or_eq_true (containsKey st.nodes d.id) with ht | hf
            · exact ht
            · exact absurd (hk ▸ (containsKey_false_iff _ _).mp hf) (by simpa using hmem)
          have hk' : (addNode st (mkPaperNode d)).nodes.map Prod.fst = insertNew vids d.id := by
            simp only [addNode]
            rw [show (mkPaperNode d).id = d.id from rfl, dictInsert_keys_present _ _ _ hck, hk,
              insertNew, if_pos hmem]
          have hg' : (addNode st (mkPaperNode d)).graphNodes = insertNew vids d.id := by
            simp only [addNode]
            rw [show (mkPaperNode d).id = d.id from rfl, hg]
          exact ih (addNode st (mkPaperNode d)) (insertNew vids d.id) hk' hg'
        · have hck : containsKey st.nodes d.id = false :=
            (containsKey_false_iff _ _).mpr (hk ▸ hmem)
          have hk' : (addNode st (mkPaperNode d)).nodes.map Prod.fst = insertNew vids d.id := by
            simp only [addNode]
            rw [show (mkPaperNode d).id = d.id from rfl, dictInsert_keys_absent _ _ _ hck, hk,
              insertNew, if_neg hmem]
          have hg' : (addNode st (mkPaperNode d)).graphNodes = insertNew vids d.id := by
            simp only [addNode]
            rw [show (mkPaperNode d).id = d.id from rfl, hg]
          exact ih (addNode st (mkPaperNode d)) (insertNew vids d.id) hk' hg'

theorem ensureIsolated_id_of_mem (vids : List String) :
    ∀ st : NetworkState, (∀ id ∈ vids, id ∈ st.graphNodes) → ensureIsolated st vids = st := by
  induction vids with
  | nil => intro st _; rfl
  | cons id rest ih =>
    intro st h
    rw [ensureIsolated, List.foldl_cons, if_pos (h id (by simp))]
    exact ih st (fun i hi => h i (List.mem_cons_of_mem _ hi))

theorem phase23_counts (st1 : NetworkState) (vids : List String) (cands : List RawEdge)
    (minC : Int) (hkeys : st1.nodes.map Prod.fst = vids) (hgraph : st1.graphNodes = vids)
    (hedges : st1.edges = []) (hge : st1.graphEdges = []) :
    (addWeightedEdges st1 (accumEdgeWeights vids [] cands) minC).graphNodes = vids
    ∧ (addWeightedEdges st1 (accumEdgeWeights vids [] cands) minC).graphNodes.length
        = (addWeightedEdges st1 (accumEdgeWeights vids [] cands) minC).nodes.length
    ∧ (((addWeightedEdges st1 (accumEdgeWeights vids [] cands) minC).edges.map edgeCanon).Nodup →
        (addWeightedEdges st1 (accumEdgeWeights vids [] cands) minC).graphEdges.length
          = (addWeightedEdges st1 (accumEdgeWeights vids [] cands) minC).edges.length) := by
  obtain ⟨he, hge2, hgn⟩ := addWeightedEdges_spec (accumEdgeWeights vids [] cands) st1 minC
  have hbounds : ∀ p ∈ accumEdgeWeights vids [] cands, p.1.1 ∈ vids ∧ p.1.2 ∈ vids := by
    apply accumEdgeWeights_key_bounds
    intro p hp
    simp at hp
  have hfilter : ∀ p ∈ (accumEdgeWeights vids [] cands).filter (fun p => minC ≤ p.2),
      p.1.1 ∈ vids ∧ p.1.2 ∈ vids := fun p hp => hbounds p (List.mem_of_mem_filter hp)
  have hgnv : (addWeightedEdges st1 (accumEdgeWeights vids [] cands) minC).graphNodes = vids := by
    rw [hgn, hgraph]
    exact foldl_insertNew_subset _ vids hfilter
  have hev : (addWeightedEdges st1 (accumEdgeWeights vids [] cands) minC).edges
      = ((accumEdgeWeights vids [] cands).filter (fun p => minC ≤ p.2)).map
          (fun p => mkCitesEdge p.1 p.2) := by
    rw [he, hedges, List.nil_append]
  refine ⟨hgnv, ?_, ?_⟩
  · rw [hgnv, addWeightedEdges_nodes]
    rw [show vids.length = (st1.nodes.map Prod.fst).length from by rw [hkeys]]
    exact (List.length_map _ _).symm ▸ rfl
  · intro hnd
    have hcanon : (addWeightedEdges st1 (accumEdgeWeights vids [] cands) minC).edges.map edgeCanon
        = ((accumEdgeWeights vids [] cands).filter (fun p => minC ≤ p.2)).map
            (fun p => canonPair p.1) := by
      rw [hev, List.map_map]
      rfl
    rw [hcanon] at hnd
    rw [hge2, hge, hev]
    rw [foldl_graphAddEdgePair_length _ [] hnd (by intro p _; simp)]
    simp [List.length_map]

theorem buildGen_counts (raws : List RawNode) (cands : List RawEdge) (minC : Int) :
    (buildFromOpenalexStreamingGenerator raws cands minC).graphNodes.length
      = (buildFromOpenalexStreamingGenerator raws cands minC).nodes.length
    ∧ (((buildFromOpenalexStreamingGenerator raws cands minC).edges.map edgeCanon).Nodup →
        (buildFromOpenalexStreamingGenerator raws cands minC).graphEdges.length
          = (buildFromOpenalexStreamingGenerator raws cands minC).edges.length) := by
  match raws with
  | [] => exact ⟨rfl, fun _ => rfl⟩
  | raw :: rest =>
    obtain ⟨hg, hk, hed, hged⟩ :=
      genAddNodes_graphNodes (raw :: rest) emptyNetwork [] rfl rfl
    obtain ⟨p1, p2, p3⟩ := phase23_counts (genAddNodes emptyNetwork [] (raw :: rest)).1
      (genAddNodes emptyNetwork [] (raw :: rest)).2 cands minC hk hg hed hged
    have hiso : ensureIsolated
        (addWeightedEdges (genAddNodes emptyNetwork [] (raw :: rest)).1
          (accumEdgeWeights (genAddNodes emptyNetwork [] (raw :: rest)).2 [] cands) minC)
        (genAddNodes emptyNetwork [] (raw :: rest)).2
        = addWeightedEdges (genAddNodes emptyNetwork [] (raw :: rest)).1
            (accumEdgeWeights (genAddNodes emptyNetwork [] (raw :: rest)).2 [] cands) minC := by
      apply ensureIsolated_id_of_mem
      intro id hid
      rw [p1]
      exact hid
    show (ensureIsolated _ _).graphNodes.length = (ensureIsolated _ _).nodes.length
      ∧ (((ensureIsolated _ _).edges.map edgeCanon).Nodup →
          (ensureIsolated _ _).graphEdges.length = (ensureIsolated _ _).edges.length)
    rw [hiso]
    exact ⟨p2, p3⟩

theorem buildOA_counts (raws : List RawNode) (cands : List RawEdge) (minC : Int) :
    (buildFromOpenalex raws cands minC).graphNodes.length
      = (buildFromOpenalex raws cands minC).nodes.length
    ∧ (((buildFromOpenalex raws cands minC).edges.map edgeCanon).Nodup →
        (buildFromOpenalex raws cands minC).graphEdges.length
          = (buildFromOpenalex raws cands minC).edges.length) := by
  match raws with
  | [] => exact ⟨rfl, fun _ => rfl⟩
  | raw :: rest =>
    obtain ⟨hg, hk, hed, hged⟩ :=
      oaAddNodes_graphNodes (raw :: rest) emptyNetwork [] rfl rfl
    match cands with
    | [] =>
      show (oaAddNodes emptyNetwork [] (raw :: rest)).1.graphNodes.length
          = (oaAddNodes emptyNetwork [] (raw :: rest)).1.nodes.length
        ∧ (((oaAddNodes emptyNetwork [] (raw :: rest)).1.edges.map edgeCanon).Nodup →
            (oaAddNodes emptyNetwork [] (raw :: rest)).1.graphEdges.length
              = (oaAddNodes emptyNetwork [] (raw :: rest)).1.edges.length)
      constructor
      · rw [hg, show (oaAddNodes emptyNetwork [] (raw :: rest)).2.length
            = ((oaAddNodes emptyNetwork [] (raw :: rest)).1.nodes.map Prod.fst).length from by
              rw [hk]]
        exact (List.length_map _ _).symm ▸ rfl
      · intro _
        rw [hed, hged]
        rfl
    | c :: cs =>
      obtain ⟨p1, p2, p3⟩ := phase23_counts (oaAddNodes emptyNetwork [] (raw :: rest)).1
        (oaAddNodes emptyNetwork [] (raw :: rest)).2 (c :: cs) minC hk hg hed hged
      exact ⟨p2, p3⟩

/-- The density consistency reported metadata is claimed to satisfy:
`network_density = 2E / (N(N-1))` for `N > 1` and `0` for `N ≤ 1`,
with `N`, `E` the reported `total_nodes`/`total_edges`. -/
def densityFormulaHolds (st : NetworkState) : Prop :=
  (1 < (toJsonMetadata st).totalNodes →
    (toJsonMetadata st).networkDensity
      = 2 * ((toJsonMetadata st).totalEdges : ℚ)
        / (((toJsonMetadata st).totalNodes : ℚ) * (((toJsonMetadata st).totalNodes : ℚ) - 1)))
  ∧ ((toJsonMetadata st).totalNodes ≤ 1 → (toJsonMetadata st).networkDensity = 0)

theorem densityFormulaHolds_of_counts (st : NetworkState)
    (hn : st.graphNodes.length = st.nodes.length)
    (he : st.graphEdges.length = st.edges.length) :
    densityFormulaHolds st := by
  unfold densityFormulaHolds
  simp only [toJsonMetadata]
  constructor
  · intro hlt
    rw [nxDensity, hn, he]
    by_cases hm : st.edges.length = 0
    · rw [if_pos (Or.inl hm), hm]
      norm_num
    · rw [if_neg (by push_neg; exact ⟨hm, by omega⟩)]
  · intro hle
    rw [nxDensity, hn]
    rw [if_pos (Or.inr hle)]

/-- C7 (amended): the reported density always equals
`2E' / (N'(N'-1))` over the *underlying undirected graph's* counts; it
matches the claimed formula over the reported `total_nodes` and
`total_edges` whenever no two materialized edges share the same
unordered endpoint pair (then the edge list and the undirected
adjacency set have the same size; the node counts always agree).  With
duplicate unordered pairs — e.g. keys `(A,B)` and `(B,A)` — the
undirected graph merges them and the reported density diverges from the
formula over the reported counts. -/
theorem C7_density_formula (raws : List RawNode) (cands : List RawEdge) (minC : Int)
    (hgen : ((buildFromOpenalexStreamingGenerator raws cands minC).edges.map edgeCanon).Nodup)
    (hoa : ((buildFromOpenalex raws cands minC).edges.map edgeCanon).Nodup) :
    densityFormulaHolds (buildFromOpenalexStreamingGenerator raws cands minC)
    ∧ densityFormulaHolds (buildFromOpenalex raws cands minC) := by
  obtain ⟨h1, h2⟩ := buildGen_counts raws cands minC
  obtain ⟨h3, h4⟩ := buildOA_counts raws cands minC
  exact ⟨densityFormulaHolds_of_counts _ h1 (h2 hgen),
    densityFormulaHolds_of_counts _ h3 (h4 hoa)⟩

set_option maxRecDepth 8000 in
theorem C7_density_formula_witness :
    ((((buildFromOpenalexStreamingGenerator c6Nodes c6Cands 2).edges.map edgeCanon).Nodup)
      ∧ (((buildFromOpenalex c6Nodes c6Cands 2).edges.map edgeCanon).Nodup))
    ∧ (densityFormulaHolds (buildFromOpenalexStreamingGenerator c6Nodes c6Cands 2)
      ∧ densityFormulaHolds (buildFromOpenalex c6Nodes c6Cands 2)) :=
  ⟨⟨by decide, by decide⟩, C7_density_formula c6Nodes c6Cands 2 (by decide) (by decide)⟩

def c7Nodes : List RawNode :=
  [some ⟨"W1", "T1", some 0, some 2020⟩, some ⟨"W2", "T2", some 0, some 2020⟩]

/-- A citation in both directions: distinct ordered accumulator keys
`(W1,W2)` and `(W2,W1)`, merged into one adjacency by the undirected
graph. -/
def c7Cands : List RawEdge := [some ⟨"W1", "W2", 1⟩, some ⟨"W2", "W1", 1⟩]

set_option maxRecDepth 8000 in
/-- C7 counterexample: after building from two nodes and the two
reversed citation candidates at threshold 1, `to_json` reports
`total_nodes = 2`, `total_edges = 2` but `network_density = 1`, because
`nx.density` sees only one undirected edge — the claimed formula
`2E/(N(N-1))` over the reported counts evaluates to `2 ≠ 1`. -/
theorem C7_counterexample_reversed_pair :
    (toJsonMetadata (buildFromOpenalex c7Nodes c7Cands 1)).totalNodes = 2
    ∧ (toJsonMetadata (buildFromOpenalex c7Nodes c7Cands 1)).totalEdges = 2
    ∧ (toJsonMetadata (buildFromOpenalex c7Nodes c7Cands 1)).networkDensity = 1
    ∧ 2 * ((toJsonMetadata (buildFromOpenalex c7Nodes c7Cands 1)).totalEdges : ℚ)
        / (((toJsonMetadata (buildFromOpenalex c7Nodes c7Cands 1)).totalNodes : ℚ)
          * (((toJsonMetadata (buildFromOpenalex c7Nodes c7Cands 1)).totalNodes : ℚ) - 1)) = 2
    ∧ (toJsonMetadata (buildFromOpenalex c7Nodes c7Cands 1)).networkDensity
        ≠ 2 * ((toJsonMetadata (buildFromOpenalex c7Nodes c7Cands 1)).totalEdges : ℚ)
          / (((toJsonMetadata (buildFromOpenalex c7Nodes c7Cands 1)).totalNodes : ℚ)
            * (((toJsonMetadata (buildFromOpenalex c7Nodes c7Cands 1)).totalNodes : ℚ) - 1)) := by
  have hn : (buildFromOpenalex c7Nodes c7Cands 1).nodes.length = 2 := by decide
  have he : (buildFromOpenalex c7Nodes c7Cands 1).edges.length = 2 := by decide
  have hgn : (buildFromOpenalex c7Nodes c7Cands 1).graphNodes.length = 2 := by decide
  have hge : (buildFromOpenalex c7Nodes c7Cands 1).graphEdges.length = 1 := by decide
  simp only [toJsonMetadata, hn, he]
  refine ⟨trivial, trivial, ?_, by norm_num, ?_⟩
  · rw [nxDensity, hge, hgn]
    norm_num
  · rw [nxDensity, hge, hgn]
    norm_num

/-! Node importance (claim C8; `NetworkBase.get_node_importance`,
network.py lines 61-88).

For `"degree"` the code builds `dict(self.graph.degree())`, takes
`max_degree = max(values) if importance else 1`, and returns
`{k: v / max_degree}` — on a non-empty graph whose degrees are all zero
this divides zero by zero and raises `ZeroDivisionError`, modelled by an
explicit error value.  `"betweenness"`, `"closeness"` and `"pagerank"`
delegate to the corresponding `networkx` centrality routines (external
to this module, modelled as opaque delegation); any other name logs a
warning and recursively evaluates the `"degree"` branch. -/

inductive ImportanceResult
  | ok (scores : List (String × ℚ))
  | zeroDivisionError
  | external (metric : String)
deriving DecidableEq

/-- Python `max(importance.values())` over the degree dict (line 74);
only used when the graph is non-empty. -/
def maxDegree (st : NetworkState) : ℕ :=
  (st.graphNodes.map (fun v => degreeOf st v)).foldl max 0

/-- The `"degree"` branch (lines 71-75). -/
def degreeImportance (st : NetworkState) : ImportanceResult :=
  if st.graphNodes = [] then ImportanceResult.ok []
  else if maxDegree st = 0 then ImportanceResult.zeroDivisionError
  else ImportanceResult.ok
    (st.graphNodes.map (fun v => (v, (degreeOf st v : ℚ) / (maxDegree st : ℚ))))

/-- Embeds `NetworkBase.get_node_importance` (lines 61-88). -/
def getNodeImportance (st : NetworkState) (metric : String) : ImportanceResult :=
  if metric = "degree" then degreeImportance st
  else if metric = "betweenness" then ImportanceResult.external "betweenness"
  else if metric = "closeness" then ImportanceResult.external "closeness"
  else if metric = "pagerank" then ImportanceResult.external "pagerank"
  else degreeImportance st

/-- C8 counterexample: on the graph built from the single node W1 and
no edges (an entirely legitimate build result — isolated nodes are
retained by design), `get_node_importance("degree")` divides by the
zero maximum degree and raises, refuting "returns a node-to-score
mapping and never raises an error". -/
theorem C8_counterexample_zero_division :
    getNodeImportance
        (buildFromOpenalexStreamingGenerator [some ⟨"W1", "T1", some 0, some 2020⟩] [] 1)
        "degree"
      = ImportanceResult.zeroDivisionError := by
  decide

/-- C8 (amended): for `"degree"` — and identically for every unknown
metric name, which falls back to the degree branch after a warning —
the operation returns each node's degree divided by the maximum
observed degree provided the graph is empty or some node has a positive
degree; on a non-empty graph in which every degree is zero it raises a
division-by-zero error instead of returning.  The three library metric
names delegate to the external centrality routines. -/
theorem C8_importance_dispatch (st : NetworkState) (metric : String)
    (hm : metric ∉ (["betweenness", "closeness", "pagerank"] : List String)) :
    getNodeImportance st metric = degreeImportance st
    ∧ (st.graphNodes = [] → degreeImportance st = ImportanceResult.ok [])
    ∧ (maxDegree st ≠ 0 →
        degreeImportance st = ImportanceResult.ok
          (st.graphNodes.map (fun v => (v, (degreeOf st v : ℚ) / (maxDegree st : ℚ)))))
    ∧ (st.graphNodes ≠ [] → maxDegree st = 0 →
        degreeImportance st = ImportanceResult.zeroDivisionError) := by
  simp only [List.mem_cons, List.not_mem_nil, or_false, not_or] at hm
  refine ⟨?_, ?_, ?_, ?_⟩
  · rw [getNodeImportance]
    by_cases hd : metric = "degree"
    · rw [if_pos hd]
    · rw [if_neg hd, if_neg hm.1, if_neg hm.2.1, if_neg hm.2.2]
  · intro hempty
    rw [degreeImportance, if_pos hempty]
  · intro hmax
    rw [degreeImportance]
    by_cases hempty : st.graphNodes = []
    · rw [if_pos hempty, hempty]
      rfl
    · rw [if_neg hempty, if_neg hmax]
  · intro hempty hmax
    rw [degreeImportance, if_neg hempty, if_pos hmax]

set_option maxRecDepth 8000 in
theorem C8_importance_dispatch_witness :
    ("communities" ∉ (["betweenness", "closeness", "pagerank"] : List String))
    ∧ (getNodeImportance (buildFromOpenalexStreamingGenerator c6Nodes c6Cands 2) "communities"
          = degreeImportance (buildFromOpenalexStreamingGenerator c6Nodes c6Cands 2)
      ∧ ((buildFromOpenalexStreamingGenerator c6Nodes c6Cands 2).graphNodes = [] →
          degreeImportance (buildFromOpenalexStreamingGenerator c6Nodes c6Cands 2)
            = ImportanceResult.ok [])
      ∧ (maxDegree (buildFromOpenalexStreamingGenerator c6Nodes c6Cands 2) ≠ 0 →
          degreeImportance (buildFromOpenalexStreamingGenerator c6Nodes c6Cands 2)
            = ImportanceResult.ok
              ((buildFromOpenalexStreamingGenerator c6Nodes c6Cands 2).graphNodes.map
                (fun v => (v, (degreeOf (buildFromOpenalexStreamingGenerator c6Nodes c6Cands 2) v : ℚ)
                  / (maxDegree (buildFromOpenalexStreamingGenerator c6Nodes c6Cands 2) : ℚ)))))
      ∧ ((buildFromOpenalexStreamingGenerator c6Nodes c6Cands 2).graphNodes ≠ [] →
          maxDegree (buildFromOpenalexStreamingGenerator c6Nodes c6Cands 2) = 0 →
          degreeImportance (buildFromOpenalexStreamingGenerator c6Nodes c6Cands 2)
            = ImportanceResult.zeroDivisionError)) :=
  ⟨by decide,
   C8_importance_dispatch (buildFromOpenalexStreamingGenerator c6Nodes c6Cands 2)
     "communities" (by decide)⟩

/-! Cursor pagination (claim C1; `OpenAlexFetcher._execute_search`,
openalex_fetcher.py lines 374-451).

The loop `while cursor and len(all_results) < limit` issues each page
request directly through `self.session.get` (line 417) — it does not
call `self._rate_limit`/`RateLimiter.acquire`, and it wraps the body in
a `try` whose `except requests.exceptions.Timeout` (lines 440-442) and
`except Exception` (lines 444-446) handlers both `break` out of the
loop, after which the accumulated results are returned normally (line
451, truncated to `limit`).  The remote server is an oracle giving the
outcome of each successive page request; the returned pair is
`(results, number of page requests issued)`. -/

inductive SearchPage (α : Type)
  | ok (results : List α) (nextCursor : Bool)
  | timeout
  | reqError
deriving DecidableEq

def executeSearchGo {α : Type} (limit : ℕ) :
    List (SearchPage α) → List α → ℕ → List α × ℕ
  | [], acc, reqs => (acc, reqs)
  | page :: rest, acc, reqs =>
    if limit ≤ acc.length then (acc, reqs)
    else
      match page with
      | SearchPage.timeout => (acc, reqs + 1)
      | SearchPage.reqError => (acc, reqs + 1)
      | SearchPage.ok results next =>
        if limit ≤ (acc ++ results).length then (acc ++ results, reqs + 1)
        else if next then executeSearchGo limit rest (acc ++ results) (reqs + 1)
        else (acc ++ results, reqs + 1)

/-- Embeds `_execute_search` over a page oracle: sequential cursor pagination,
no rate limiting, `break` on timeout or error, final truncation
`all_results[:limit]`. -/
def executeSearch {α : Type} (pages : List (SearchPage α)) (limit : ℕ) : List α × ℕ :=
  ((executeSearchGo limit pages [] 0).1.take limit, (executeSearchGo limit pages [] 0).2)

/-- C1 evidence (code bug): evaluating `_execute_search` at a run whose
first page request times out shows the code issues exactly one request
and returns the empty result normally — the timed-out page request is
neither retried (with or without backoff) nor is the failure propagated
to the caller; and a timeout on the second page likewise returns the
partial first page after exactly two requests.  The loop also performs
no `RateLimiter.acquire` call at all before its page requests
(`executeSearch` contains no rate-limiter state, mirroring the
`session.get` call of line 417). -/
theorem C1_execute_search_timeout_behavior :
    executeSearch (α := ℕ) [SearchPage.timeout] 200 = ([], 1)
    ∧ executeSearch (α := ℕ) [SearchPage.ok [7] true, SearchPage.timeout] 200 = ([7], 2) := by
  decide

/-! Claim C10: `_rate_limit` and the call sites of a denied `acquire`
(openalex_fetcher.py lines 145-153 and 173-192).  `_make_request`
begins every attempt with `self._rate_limit()`, which calls
`acquire(timeout=60)` and only logs a warning when it returns `False`;
the subsequent `self.session.get` is issued unconditionally. -/

inductive FetchEvent
  | rateLimitTimeoutWarn
  | httpRequest (clock : ℚ)
deriving DecidableEq

/-- Embeds `OpenAlexFetcher._rate_limit` (lines 145-153): returns the warning
events, the limiter state and the clock after the call. -/
def rateLimitCall (minInterval last : ℚ) (inp : AcquireInput) : List FetchEvent × ℚ × ℚ :=
  if (acquire minInterval 60 last inp).1
  then ([], (acquire minInterval 60 last inp).2.1, (acquire minInterval 60 last inp).2.2)
  else ([FetchEvent.rateLimitTimeoutWarn],
    (acquire minInterval 60 last inp).2.1, (acquire minInterval 60 last inp).2.2)

/-- The opening of one `_make_request` attempt (lines 173-178):
`self._rate_limit()` followed unconditionally by the HTTP request. -/
def makeRequestAttemptEvents (minInterval last : ℚ) (inp : AcquireInput) :
    List FetchEvent × ℚ × ℚ :=
  ((rateLimitCall minInterval last inp).1
      ++ [FetchEvent.httpRequest (rateLimitCall minInterval last inp).2.2],
    (rateLimitCall minInterval last inp).2.1,
    (rateLimitCall minInterval last inp).2.2)

theorem acquire_false_full (minInterval timeout last : ℚ) (inp : AcquireInput)
    (h : (acquire minInterval timeout last inp).1 = false) :
    acquire minInterval timeout last inp = (false, last, inp.start + inp.checkDelay) := by
  unfold acquire at *
  split_ifs at * <;> simp_all

/-- C10: whenever `acquire` returns `False` (timeout), the call site
only logs a warning and still issues the HTTP request: the attempt's
event trace is exactly the warning followed by the request, the
limiter's `last_request_time` is unchanged, and the request goes out at
the very clock at which the failed `acquire` returned — the denial
neither suppresses nor delays the request. -/
theorem C10_denied_acquire_still_requests (minInterval last : ℚ) (inp : AcquireInput)
    (h : (acquire minInterval 60 last inp).1 = false) :
    makeRequestAttemptEvents minInterval last inp
      = ([FetchEvent.rateLimitTimeoutWarn, FetchEvent.httpRequest (inp.start + inp.checkDelay)],
         last, inp.start + inp.checkDelay) := by
  have hfull := acquire_false_full minInterval 60 last inp h
  rw [makeRequestAttemptEvents, rateLimitCall, hfull]
  rfl

theorem C10_denied_acquire_still_requests_witness :
    ((acquire 100 60 100 ⟨101, 0, 0, 0⟩).1 = false)
    ∧ makeRequestAttemptEvents 100 100 ⟨101, 0, 0, 0⟩
        = ([FetchEvent.rateLimitTimeoutWarn,
            FetchEvent.httpRequest ((101 : ℚ) + (0 : ℚ))], 100, (101 : ℚ) + (0 : ℚ)) :=
  ⟨by norm_num [acquire],
   C10_denied_acquire_still_requests 100 100 ⟨101, 0, 0, 0⟩ (by norm_num [acquire])⟩

end UFCT
